import Mathlib

/-!
Verification of the apt-diff verification pipeline against its sources.

Python strings are modelled as `List Char` (`PyStr`), byte buffers as
`List Nat`.  Each pipeline stage is embedded as an executable Lean function
translated from the corresponding Python source file; external effects
(MD5 digests, `os.path.lexists`, the `diff` subprocess exit status, APT
archive acquisition) are passed in as explicit oracle functions.
-/

/-- Python strings, modelled as their character sequences. -/
abbrev PyStr := List Char

namespace PyOps

/-- Python `a <= b` on strings: lexicographic comparison by code point. -/
def lexLe : PyStr → PyStr → Bool
  | [], _ => true
  | _ :: _, [] => false
  | a :: as, b :: bs => if a < b then true else if b < a then false else lexLe as bs

/-- Python `s.rstrip("\n")`: drop all trailing newline characters. -/
def rstripNl (s : PyStr) : PyStr :=
  (s.reverse.dropWhile (· = '\n')).reverse

/-- Python `s.lstrip("/")`. -/
def lstripSlash (s : PyStr) : PyStr := s.dropWhile (· = '/')

/-- Python `s.split(c)` (split on every occurrence, keeping empty parts). -/
def splitOnChar (c : Char) : PyStr → List PyStr
  | [] => [[]]
  | x :: xs =>
    if x = c then [] :: splitOnChar c xs
    else
      match splitOnChar c xs with
      | h :: t => (x :: h) :: t
      | [] => [[x]]

/-- Python `s.split(c, 1)`: the part before the first occurrence of `c`,
and the remainder after it when `c` occurs. -/
def splitOnceOn (c : Char) : PyStr → PyStr × Option PyStr
  | [] => ([], none)
  | x :: xs =>
    if x = c then ([], some xs)
    else
      let r := splitOnceOn c xs
      (x :: r.1, r.2)

/-- Python `" ".join l` generalised to an arbitrary separator character. -/
def joinOn (c : Char) : List PyStr → PyStr
  | [] => []
  | [s] => s
  | s :: rest => s ++ c :: joinOn c rest

theorem lexLe_total (a b : PyStr) : lexLe a b = true ∨ lexLe b a = true := by
  induction a generalizing b with
  | nil => left; rfl
  | cons x xs ih =>
    cases b with
    | nil => right; rfl
    | cons y ys =>
      simp only [lexLe]
      rcases lt_trichotomy x y with h | h | h
      · left; simp [h]
      · subst h
        simp only [lt_irrefl, if_false]
        exact ih ys
      · right; simp [h, not_lt_of_gt h]

theorem lexLe_antisymm {a b : PyStr} (h₁ : lexLe a b = true) (h₂ : lexLe b a = true) :
    a = b := by
  induction a generalizing b with
  | nil =>
    cases b with
    | nil => rfl
    | cons y ys => simp [lexLe] at h₂
  | cons x xs ih =>
    cases b with
    | nil => simp [lexLe] at h₁
    | cons y ys =>
      simp only [lexLe] at h₁ h₂
      rcases lt_trichotomy x y with h | h | h
      · simp [h, not_lt_of_gt h] at h₂
      · subst h
        simp only [lt_irrefl, if_false] at h₁ h₂
        rw [ih h₁ h₂]
      · simp [h, not_lt_of_gt h] at h₁

theorem lexLe_trans {a b c : PyStr} (h₁ : lexLe a b = true) (h₂ : lexLe b c = true) :
    lexLe a c = true := by
  induction a generalizing b c with
  | nil => rfl
  | cons x xs ih =>
    cases b with
    | nil => simp [lexLe] at h₁
    | cons y ys =>
      cases c with
      | nil => simp [lexLe] at h₂
      | cons z zs =>
        simp only [lexLe] at h₁ h₂ ⊢
        rcases lt_trichotomy x y with hxy | hxy | hxy
        · rcases lt_trichotomy y z with hyz | hyz | hyz
          · simp [lt_trans hxy hyz]
          · subst hyz; simp [hxy]
          · simp [hyz, not_lt_of_gt hyz] at h₂
        · subst hxy
          simp only [lt_irrefl, if_false] at h₁
          rcases lt_trichotomy x z with hyz | hyz | hyz
          · simp [hyz]
          · subst hyz
            simp only [lt_irrefl, if_false] at h₂ ⊢
            exact ih h₁ h₂
          · simp [hyz, not_lt_of_gt hyz] at h₂
        · simp [hxy, not_lt_of_gt hxy] at h₁

/-- A prefix is lexicographically at most any of its extensions. -/
theorem lexLe_of_prefix {a b : PyStr} (h : a <+: b) : lexLe a b = true := by
  induction a generalizing b with
  | nil => rfl
  | cons x xs ih =>
    cases b with
    | nil => exact absurd (List.IsPrefix.length_le h) (by simp)
    | cons y ys =>
      obtain ⟨t, ht⟩ := h
      injection ht with h1 h2
      subst h1
      simp only [lexLe, lt_irrefl, if_false]
      exact ih ⟨t, h2⟩

/-- The lexicographic sandwich lemma: if `a ≤ b ≤ c` and `a` is a prefix of
`c`, then `a` is a prefix of `b`. -/
theorem prefix_of_lexLe_sandwich {a b c : PyStr} (h₁ : lexLe a b = true)
    (h₂ : lexLe b c = true) (h : a <+: c) : a <+: b := by
  induction a generalizing b c with
  | nil => exact List.nil_prefix
  | cons x xs ih =>
    cases c with
    | nil => exact absurd (List.IsPrefix.length_le h) (by simp)
    | cons z zs =>
      obtain ⟨t, ht⟩ := h
      injection ht with hxz hrest
      subst hxz
      cases b with
      | nil => simp [lexLe] at h₁
      | cons y ys =>
        simp only [lexLe] at h₁ h₂
        rcases lt_trichotomy x y with hxy | hxy | hxy
        · simp [hxy, not_lt_of_gt hxy] at h₂
        · subst hxy
          simp only [lt_irrefl, if_false] at h₁ h₂
          exact List.cons_prefix_cons.mpr ⟨rfl, ih h₁ h₂ ⟨t, hrest⟩⟩
        · simp [hxy, not_lt_of_gt hxy] at h₁

/-- Splitting never yields an empty list of parts. -/
theorem splitOnChar_ne_nil (c : Char) (s : PyStr) : splitOnChar c s ≠ [] := by
  cases s with
  | nil => simp [splitOnChar]
  | cons x xs =>
    simp only [splitOnChar]
    split
    · simp
    · split <;> simp_all

/-- Rejoining the pieces of a full split restores the original string. -/
theorem joinOn_splitOnChar (c : Char) (s : PyStr) :
    joinOn c (splitOnChar c s) = s := by
  induction s with
  | nil => rfl
  | cons x xs ih =>
    cases hs : splitOnChar c xs with
    | nil => exact absurd hs (splitOnChar_ne_nil c xs)
    | cons h t =>
      rw [hs] at ih
      by_cases hx : x = c
      · subst hx
        simp only [splitOnChar, if_pos rfl, hs]
        cases t with
        | nil => simpa [joinOn] using ih
        | cons t1 t2 => simpa [joinOn] using ih
      · simp only [splitOnChar, if_neg hx, hs]
        cases t with
        | nil => simpa [joinOn] using ih
        | cons t1 t2 =>
          simp only [joinOn] at ih ⊢
          simpa using ih

/-- Splitting at a separator that does not occur in the left part. -/
theorem splitOnChar_append (c : Char) (xs ys : PyStr) (h : c ∉ xs) :
    splitOnChar c (xs ++ c :: ys) = xs :: splitOnChar c ys := by
  induction xs with
  | nil => simp [splitOnChar]
  | cons a as ih =>
    have ha : a ≠ c := fun hac => h (hac ▸ List.mem_cons_self a as)
    have h' : c ∉ as := fun hm => h (List.mem_cons_of_mem _ hm)
    show splitOnChar c (a :: (as ++ c :: ys)) = _
    rw [splitOnChar, if_neg ha, ih h']

/-- A string without the separator splits to the singleton part. -/
theorem splitOnChar_of_not_mem (c : Char) (xs : PyStr) (h : c ∉ xs) :
    splitOnChar c xs = [xs] := by
  induction xs with
  | nil => rfl
  | cons a as ih =>
    have ha : a ≠ c := fun hac => h (hac ▸ List.mem_cons_self a as)
    have h' : c ∉ as := fun hm => h (List.mem_cons_of_mem _ hm)
    simp only [splitOnChar, if_neg ha, ih h']

end PyOps

/-!
## Flat dpkg tree: owner recording (src/dpkg_helper.py)

`FilesystemNode.__record_owner` keeps the first recorded package name and
collapses to the sentinel `"(multiple packages)"` as soon as a different
name is recorded.  `has_multiple_owners` compares against the sentinel.
-/

namespace DpkgHelperFlat

def MULTIPLE : PyStr := "(multiple packages)".toList

/-- `FilesystemNode.__record_owner`, acting on the stored `__pkgname`. -/
def recordOwner (pkgname : Option PyStr) (new : PyStr) : Option PyStr :=
  match pkgname with
  | none => some new
  | some x => if x = new then some x else some MULTIPLE

/-- The `__pkgname` field after a sequence of `__record_owner` calls on a
fresh node. -/
def recordOwners (l : List PyStr) : Option PyStr :=
  l.foldl recordOwner none

/-- `FilesystemNode.has_multiple_owners`. -/
def hasMultipleOwners (pkgname : Option PyStr) : Bool :=
  if pkgname = some MULTIPLE then true else false

theorem foldl_recordOwner_multiple (l : List PyStr) :
    l.foldl recordOwner (some MULTIPLE) = some MULTIPLE := by
  induction l with
  | nil => rfl
  | cons y ys ih =>
    simp only [List.foldl_cons, recordOwner]
    split <;> exact ih

theorem foldl_recordOwner_const (l : List PyStr) (x : PyStr)
    (h : ∀ y ∈ l, y = x) : l.foldl recordOwner (some x) = some x := by
  induction l with
  | nil => rfl
  | cons y ys ih =>
    have hy : y = x := h y (List.mem_cons_self _ _)
    simp only [List.foldl_cons, recordOwner, hy, if_pos rfl]
    exact ih fun z hz => h z (List.mem_cons_of_mem _ hz)

theorem foldl_recordOwner_eq_multiple_iff (l : List PyStr) (x : PyStr)
    (hx : x ≠ MULTIPLE) :
    l.foldl recordOwner (some x) = some MULTIPLE ↔ ∃ y ∈ l, y ≠ x := by
  induction l with
  | nil =>
    simp only [List.foldl_nil, Option.some_inj]
    simp [hx]
  | cons y ys ih =>
    simp only [List.foldl_cons, recordOwner]
    by_cases hxy : x = y
    · rw [if_pos hxy, ih]
      constructor
      · rintro ⟨z, hz, hzx⟩; exact ⟨z, List.mem_cons_of_mem _ hz, hzx⟩
      · rintro ⟨z, hz, hzx⟩
        rcases List.mem_cons.mp hz with h | h
        · exact absurd (h.trans hxy.symm) hzx
        · exact ⟨z, h, hzx⟩
    · rw [if_neg hxy, foldl_recordOwner_multiple]
      exact ⟨fun _ => ⟨y, List.mem_cons_self _ _, fun h => hxy h.symm⟩, fun _ => rfl⟩

end DpkgHelperFlat

/-!
## MD5 computation: mmap versus streaming (src/apt_diff/md5sums_checker.py)

The `hashlib.md5` object is modelled by its accumulated input: each
`update` appends bytes, and `hexdigest` applies an abstract digest
function `md5` to the accumulated byte sequence.  File contents are byte
lists; `fstat` size is the content length.
-/

namespace Md5sumsChecker

/-- `_READ_SIZE = 4096 * 16`. -/
def READ_SIZE : Nat := 4096 * 16

/-- The successive non-empty buffers returned by `f.read(_READ_SIZE)`. -/
def readChunks (content : List Nat) : List (List Nat) :=
  if content = [] then []
  else content.take READ_SIZE :: readChunks (content.drop READ_SIZE)
termination_by content.length
decreasing_by
  simp only [List.length_drop]
  have : content.length ≠ 0 := by
    simpa [List.length_eq_zero] using ‹¬content = []›
  simp only [READ_SIZE]
  omega

/-- `_compute_md5_by_syscalls`: hash the concatenation of the 64 KiB reads. -/
def computeMd5BySyscalls (md5 : List Nat → PyStr) (content : List Nat) : PyStr :=
  md5 (readChunks content).flatten

/-- `_compute_md5_by_mmap`: hash the whole mapping, skipping the `mmap`
call entirely when the file size is zero. -/
def computeMd5ByMmap (md5 : List Nat → PyStr) (content : List Nat) : PyStr :=
  if content.length = 0 then md5 [] else md5 content

/-- `_compute_md5`: try mmap, silently falling back to streaming when the
mapping attempt raises (oracle `mmapFails`). -/
def computeMd5 (md5 : List Nat → PyStr) (mmapFails : Bool)
    (content : List Nat) : PyStr :=
  if mmapFails then computeMd5BySyscalls md5 content
  else computeMd5ByMmap md5 content

theorem join_readChunks (content : List Nat) :
    (readChunks content).flatten = content := by
  induction content using readChunks.induct with
  | case1 => simp [readChunks]
  | case2 c hne ih =>
    rw [readChunks, if_neg hne]
    simp only [List.flatten_cons, ih, List.take_append_drop]

end Md5sumsChecker

/-!
## Claim theorems for C10 and C8
-/

/-- **C10.** In the flat dpkg tree, for any sequence of owner recordings on a
node drawn from names distinct from the sentinel `"(multiple packages)"`,
`has_multiple_owners()` is true iff at least two distinct package names were
recorded, and `pkgname()` is the unique recorded name when exactly one
distinct name was recorded. -/
theorem flat_record_owner_multiplicity (l : List PyStr)
    (hm : DpkgHelperFlat.MULTIPLE ∉ l) :
    (DpkgHelperFlat.hasMultipleOwners (DpkgHelperFlat.recordOwners l) = true ↔
        ∃ a ∈ l, ∃ b ∈ l, a ≠ b) ∧
      (∀ x ∈ l, (∀ y ∈ l, y = x) →
        DpkgHelperFlat.recordOwners l = some x) := by
  constructor
  · cases l with
    | nil => simp [DpkgHelperFlat.recordOwners, DpkgHelperFlat.hasMultipleOwners]
    | cons x ys =>
      have hx : x ≠ DpkgHelperFlat.MULTIPLE := by
        intro h; exact hm (h ▸ List.mem_cons_self _ _)
      have hys : DpkgHelperFlat.recordOwners (x :: ys) =
          ys.foldl DpkgHelperFlat.recordOwner (some x) := by
        simp [DpkgHelperFlat.recordOwners, DpkgHelperFlat.recordOwner]
      rw [hys]
      have base := DpkgHelperFlat.foldl_recordOwner_eq_multiple_iff ys x hx
      constructor
      · intro h
        have h' : ys.foldl DpkgHelperFlat.recordOwner (some x) =
            some DpkgHelperFlat.MULTIPLE := by
          by_contra hcon
          simp [DpkgHelperFlat.hasMultipleOwners, hcon] at h
        obtain ⟨y, hyel, hyx⟩ := base.mp h'
        exact ⟨x, List.mem_cons_self _ _, y, List.mem_cons_of_mem _ hyel,
          fun h => hyx h.symm⟩
      · rintro ⟨a, ha, b, hb, hab⟩
        have : ∃ y ∈ ys, y ≠ x := by
          by_cases hax : a = x
          · have hbx : b ≠ x := fun h => hab (hax.trans h.symm)
            rcases List.mem_cons.mp hb with h' | h'
            · exact absurd h' hbx
            · exact ⟨b, h', hbx⟩
          · rcases List.mem_cons.mp ha with h | h
            · exact absurd h hax
            · exact ⟨a, h, hax⟩
        rw [DpkgHelperFlat.hasMultipleOwners, if_pos (base.mpr this)]
  · intro x hx hall
    cases l with
    | nil => cases hx
    | cons h ys =>
      have hh : h = x := hall h (List.mem_cons_self _ _)
      subst hh
      have : DpkgHelperFlat.recordOwners (h :: ys) =
          ys.foldl DpkgHelperFlat.recordOwner (some h) := by
        simp [DpkgHelperFlat.recordOwners, DpkgHelperFlat.recordOwner]
      rw [this]
      exact DpkgHelperFlat.foldl_recordOwner_const ys h
        fun z hz => hall z (List.mem_cons_of_mem _ hz)

/-- Witness for `flat_record_owner_multiplicity` at the recording sequence
`["libc6", "bash", "libc6"]`. -/
theorem flat_record_owner_multiplicity_witness :
    DpkgHelperFlat.MULTIPLE ∉ ["libc6".toList, "bash".toList, "libc6".toList] ∧
      ((DpkgHelperFlat.hasMultipleOwners
          (DpkgHelperFlat.recordOwners
            ["libc6".toList, "bash".toList, "libc6".toList]) = true ↔
        ∃ a ∈ ["libc6".toList, "bash".toList, "libc6".toList],
          ∃ b ∈ ["libc6".toList, "bash".toList, "libc6".toList], a ≠ b) ∧
      (∀ x ∈ ["libc6".toList, "bash".toList, "libc6".toList],
        (∀ y ∈ ["libc6".toList, "bash".toList, "libc6".toList], y = x) →
        DpkgHelperFlat.recordOwners
          ["libc6".toList, "bash".toList, "libc6".toList] = some x)) :=
  ⟨by decide, flat_record_owner_multiplicity _ (by decide)⟩

/-- **C8.** For every file content, the mmap-based MD5 computation and the
streaming 64 KiB-read computation agree (including the zero-length case,
where the mmap variant skips mapping), so `_compute_md5`'s fallback never
changes the result. -/
theorem compute_md5_mmap_eq_syscalls (md5 : List Nat → PyStr)
    (content : List Nat) (mmapFails : Bool) :
    Md5sumsChecker.computeMd5BySyscalls md5 content =
        Md5sumsChecker.computeMd5ByMmap md5 content ∧
      Md5sumsChecker.computeMd5 md5 mmapFails content =
        Md5sumsChecker.computeMd5ByMmap md5 content := by
  have hsys : Md5sumsChecker.computeMd5BySyscalls md5 content = md5 content := by
    rw [Md5sumsChecker.computeMd5BySyscalls, Md5sumsChecker.join_readChunks]
  have hmm : Md5sumsChecker.computeMd5ByMmap md5 content = md5 content := by
    rw [Md5sumsChecker.computeMd5ByMmap]
    rcases List.eq_nil_or_concat content with h | _
    · subst h; simp
    · split
      · next hlen => rw [List.length_eq_zero.mp hlen]
      · rfl
  refine ⟨hsys.trans hmm.symm, ?_⟩
  cases mmapFails with
  | true => simpa [Md5sumsChecker.computeMd5] using hsys.trans hmm.symm
  | false => simp [Md5sumsChecker.computeMd5]

/-!
## Hash checker stage (src/apt_diff/md5sums_checker.py, `run`)

`run` reads lines `<pkg> <hash> <path>` (split on the first two spaces),
verifies the MD5 of `<path>` via `_compute_md5` (here the oracle
`md5 : PyStr → Option PyStr`, `none` modelling a raised exception), and
writes `<pkg> <path>` exactly for the mismatches.
-/

namespace Md5sumsChecker

/-- `line.rstrip('\n').split(' ', 2)`, accepted only with exactly 3 parts. -/
def parseCheckLine (line : PyStr) : Option (PyStr × PyStr × PyStr) :=
  let l := PyOps.rstripNl line
  match PyOps.splitOnceOn ' ' l with
  | (_, none) => none
  | (p1, some rest) =>
    match PyOps.splitOnceOn ' ' rest with
    | (_, none) => none
    | (p2, some p3) => some (p1, p2, p3)

/-- The `(pkg, path)` records written by `run` for the given input lines. -/
def runChecker (md5 : PyStr → Option PyStr) : List PyStr → List (PyStr × PyStr)
  | [] => []
  | line :: rest =>
    match parseCheckLine line with
    | none => runChecker md5 rest
    | some (pkg, expected, filename) =>
      match md5 filename with
      | none => runChecker md5 rest
      | some actual =>
        if actual = expected then runChecker md5 rest
        else (pkg, filename) :: runChecker md5 rest

end Md5sumsChecker

/-- **C2.** Every `(pkg, path)` record emitted by the hash-checker stage comes
from an input line parsing as `<pkg> <hash> <path>` whose file's computed MD5
digest is defined and differs from `<hash>`; in particular no record is
emitted for a file whose actual MD5 equals the provided hash. -/
theorem md5_checker_emits_only_mismatches (md5 : PyStr → Option PyStr)
    (lines : List PyStr) (pkg fn : PyStr)
    (h : (pkg, fn) ∈ Md5sumsChecker.runChecker md5 lines) :
    ∃ line ∈ lines, ∃ expected actual,
      Md5sumsChecker.parseCheckLine line = some (pkg, expected, fn) ∧
        md5 fn = some actual ∧ actual ≠ expected := by
  induction lines with
  | nil => cases h
  | cons line rest ih =>
    rw [Md5sumsChecker.runChecker] at h
    split at h
    · obtain ⟨l, hl, hrest⟩ := ih h
      exact ⟨l, List.mem_cons_of_mem _ hl, hrest⟩
    · next pkg' expected filename hparse =>
      split at h
      · obtain ⟨l, hl, hrest⟩ := ih h
        exact ⟨l, List.mem_cons_of_mem _ hl, hrest⟩
      · next actual hmd5 =>
        split at h
        · obtain ⟨l, hl, hrest⟩ := ih h
          exact ⟨l, List.mem_cons_of_mem _ hl, hrest⟩
        · next hne =>
          rcases List.mem_cons.mp h with heq | hmem
          · injection heq with h1 h2
            subst h1 h2
            exact ⟨line, List.mem_cons_self _ _, expected, actual, hparse, hmd5, hne⟩
          · obtain ⟨l, hl, hrest⟩ := ih hmem
            exact ⟨l, List.mem_cons_of_mem _ hl, hrest⟩

/-- Witness for `md5_checker_emits_only_mismatches`: a one-line stream whose
file hashes differently from the given hash. -/
theorem md5_checker_emits_only_mismatches_witness :
    (("pkg0".toList, "/etc/f".toList) ∈
        Md5sumsChecker.runChecker (fun (_ : PyStr) => some "ffff".toList)
          ["pkg0 0123 /etc/f\n".toList]) ∧
      ∃ line ∈ ["pkg0 0123 /etc/f\n".toList], ∃ expected actual,
        Md5sumsChecker.parseCheckLine line =
            some ("pkg0".toList, expected, "/etc/f".toList) ∧
          (fun (_ : PyStr) => some "ffff".toList) "/etc/f".toList = some actual ∧
          actual ≠ expected :=
  ⟨by decide, md5_checker_emits_only_mismatches
    (fun (_ : PyStr) => some "ffff".toList) ["pkg0 0123 /etc/f\n".toList]
    "pkg0".toList "/etc/f".toList (by decide)⟩

/-!
## Driver output to the hash-verifier stage (src/apt_diff/apt_diff.py:482-486)

`AptDiff.__check_file_with_md5sum` writes
`self.__md5sum_in.write("%s  %s\n" % (md5sum, normpath))`: hash, TWO
spaces, path — there is no package field, unlike the
`pkg SP hash SP path LF` format that `md5sums_checker.run` (launched on
this very stream by `_launch_pipeline`) splits on its first two spaces.
-/

namespace AptDiffDriver

/-- The line written by `AptDiff.__check_file_with_md5sum`. -/
def checkFileWithMd5sumLine (md5sum normpath : PyStr) : PyStr :=
  md5sum ++ ' ' :: ' ' :: normpath ++ ['\n']

end AptDiffDriver

/-- **C4 (code bug).** The driver writes `hash SP SP path LF`, not
`pkg SP hash SP path LF`: fed to the hash-checker's parser, the package
field comes out as the 32-hex hash and the expected-hash field as the empty
string, so the record cannot match the format the checker stage expects. -/
theorem check_file_with_md5sum_line_misparsed :
    AptDiffDriver.checkFileWithMd5sumLine
        "d41d8cd98f00b204e9800998ecf8427e".toList "/usr/bin/hello".toList =
      "d41d8cd98f00b204e9800998ecf8427e  /usr/bin/hello\n".toList ∧
      Md5sumsChecker.parseCheckLine
          (AptDiffDriver.checkFileWithMd5sumLine
            "d41d8cd98f00b204e9800998ecf8427e".toList "/usr/bin/hello".toList) =
        some ("d41d8cd98f00b204e9800998ecf8427e".toList, [],
          "/usr/bin/hello".toList) := by
  constructor
  · decide
  · decide

/-!
## Distributor (src/distributor.py, `run`)

State observed by `on_source_lines`: the number of spawned worker sinks
and the round-robin cursor `next_sink`.  For each incoming batch of lines
the environment supplies a snapshot `pending i` of
`process_sinks[i].has_data_pending()`.
-/

namespace Distributor

def DEFAULT_MAX_PROCESSES : Nat := 5

structure DistState where
  numSinks : Nat
  nextSink : Nat
deriving DecidableEq

def initState : DistState := ⟨0, 0⟩

/-- The busy-scan `while` loop: starting at `next_sink`, visit each of the
`n` sinks once in cyclic order and return the first whose write buffer is
drained. -/
def scanReady (pending : Nat → Bool) (n start : Nat) : Option Nat :=
  ((List.range n).map (fun k => (start + k) % n)).find? (fun i => ! pending i)

/-- One `on_source_lines` event.  Returns the new state, whether a worker
was spawned, and the index of the sink the lines were written to. -/
def onSourceLines (maxP : Nat) (st : DistState) (pending : Nat → Bool) :
    DistState × Bool × Nat :=
  match (if st.numSinks ≠ 0 then scanReady pending st.numSinks st.nextSink
         else none) with
  | some i => (⟨st.numSinks, (i + 1) % st.numSinks⟩, false, i)
  | none =>
    if st.numSinks < maxP then
      let idx := (st.numSinks + 1) - 1
      (⟨st.numSinks + 1, (idx + 1) % (st.numSinks + 1)⟩, true, idx)
    else
      (⟨st.numSinks, (st.nextSink + 1) % st.numSinks⟩, false, st.nextSink)

/-- The distributor state after a sequence of `on_source_lines` events. -/
def runDistributor (maxP : Nat) (events : List (Nat → Bool)) : DistState :=
  events.foldl (fun st p => (onSourceLines maxP st p).1) initState

theorem scanReady_lt {pending : Nat → Bool} {n start i : Nat}
    (h : scanReady pending n start = some i) : i < n := by
  have hmem := List.mem_of_find?_eq_some h
  obtain ⟨k, hk, hki⟩ := List.mem_map.mp hmem
  have hn : 0 < n := by
    rcases Nat.eq_zero_or_pos n with h0 | h0
    · subst h0; simp [List.range_zero] at hk
    · exact h0
  exact hki ▸ Nat.mod_lt _ hn

theorem exists_cyclic_offset (n start i : Nat) (hi : i < n) :
    ∃ k < n, (start + k) % n = i := by
  have hn : 0 < n := Nat.lt_of_le_of_lt (Nat.zero_le _) hi
  have hs : start % n < n := Nat.mod_lt _ hn
  by_cases h : start % n ≤ i
  · refine ⟨i - start % n, by omega, ?_⟩
    rw [Nat.add_mod, Nat.mod_eq_of_lt (show i - start % n < n by omega)]
    have he : start % n + (i - start % n) = i := by omega
    rw [he, Nat.mod_eq_of_lt hi]
  · refine ⟨n + i - start % n, by omega, ?_⟩
    rw [Nat.add_mod, Nat.mod_eq_of_lt (show n + i - start % n < n by omega)]
    have he : start % n + (n + i - start % n) = n + i := by omega
    rw [he, Nat.add_mod_left, Nat.mod_eq_of_lt hi]

/-- If the cyclic scan found no drained sink, every sink is busy. -/
theorem scanReady_none {pending : Nat → Bool} {n start : Nat}
    (h : scanReady pending n start = none) : ∀ i < n, pending i = true := by
  intro i hi
  obtain ⟨k, hk, hki⟩ := exists_cyclic_offset n start i hi
  have hmem : (start + k) % n ∈ (List.range n).map (fun k => (start + k) % n) :=
    List.mem_map.mpr ⟨k, List.mem_range.mpr hk, rfl⟩
  have := List.find?_eq_none.mp h _ hmem
  rw [hki] at this
  simpa using this

/-- State invariant: at most `maxP` sinks, and a valid cursor. -/
def Inv (maxP : Nat) (st : DistState) : Prop :=
  st.numSinks ≤ maxP ∧ (0 < st.numSinks → st.nextSink < st.numSinks)

theorem onSourceLines_inv {maxP : Nat} {st : DistState} (pending : Nat → Bool)
    (h : Inv maxP st) : Inv maxP (onSourceLines maxP st pending).1 := by
  obtain ⟨h₁, h₂⟩ := h
  cases hscan : (if st.numSinks ≠ 0 then scanReady pending st.numSinks st.nextSink
      else none) with
  | some i =>
    have hn : st.numSinks ≠ 0 := by
      by_contra h0
      rw [if_neg (by simpa using h0)] at hscan
      cases hscan
    simp only [onSourceLines, hscan]
    exact ⟨h₁, fun _ => Nat.mod_lt _ (Nat.pos_of_ne_zero hn)⟩
  | none =>
    by_cases hlt : st.numSinks < maxP
    · simp only [onSourceLines, hscan, if_pos hlt]
      exact ⟨hlt, fun _ => Nat.mod_lt _ (Nat.succ_pos _)⟩
    · simp only [onSourceLines, hscan, if_neg hlt]
      exact ⟨h₁, fun hp => Nat.mod_lt _ hp⟩

theorem onSourceLines_eq_of_scan_some {maxP : Nat} {st : DistState}
    {pending : Nat → Bool} {i : Nat}
    (h : (if st.numSinks ≠ 0 then scanReady pending st.numSinks st.nextSink
          else none) = some i) :
    onSourceLines maxP st pending =
      (⟨st.numSinks, (i + 1) % st.numSinks⟩, false, i) := by
  rw [onSourceLines, h]

theorem onSourceLines_eq_of_scan_none_spawn {maxP : Nat} {st : DistState}
    {pending : Nat → Bool}
    (h : (if st.numSinks ≠ 0 then scanReady pending st.numSinks st.nextSink
          else none) = none) (hlt : st.numSinks < maxP) :
    onSourceLines maxP st pending =
      (⟨st.numSinks + 1, (st.numSinks + 1 - 1 + 1) % (st.numSinks + 1)⟩, true,
        st.numSinks + 1 - 1) := by
  rw [onSourceLines, h]
  simp only [if_pos hlt]

theorem onSourceLines_eq_of_scan_none_full {maxP : Nat} {st : DistState}
    {pending : Nat → Bool}
    (h : (if st.numSinks ≠ 0 then scanReady pending st.numSinks st.nextSink
          else none) = none) (hlt : ¬ st.numSinks < maxP) :
    onSourceLines maxP st pending =
      (⟨st.numSinks, (st.nextSink + 1) % st.numSinks⟩, false, st.nextSink) := by
  rw [onSourceLines, h]
  simp only [if_neg hlt]

theorem runDistributor_inv (maxP : Nat) (events : List (Nat → Bool)) :
    Inv maxP (runDistributor maxP events) := by
  have : ∀ (evs : List (Nat → Bool)) (st : DistState), Inv maxP st →
      Inv maxP (evs.foldl (fun st p => (onSourceLines maxP st p).1) st) := by
    intro evs
    induction evs with
    | nil => intro st h; exact h
    | cons e rest ih =>
      intro st h
      exact ih _ (onSourceLines_inv e h)
  exact this events initState ⟨Nat.zero_le _, fun h => absurd h (by simp [initState])⟩

end Distributor

/-- **C9.** The distributor never exceeds `max_processes` worker sinks
(default 5): after any sequence of input events the sink count is at most
`max_processes`; a step spawns a worker only when every existing sink still
has data pending and the count is strictly below the bound, writing the
lines to the new sink; otherwise the lines go to an existing sink and the
count is unchanged. -/
theorem distributor_spawn_bound (maxP : Nat) (hmax : 1 ≤ maxP)
    (events : List (Nat → Bool)) :
    (Distributor.runDistributor maxP events).numSinks ≤ maxP ∧
      (∀ (st : Distributor.DistState) (pending : Nat → Bool),
        Distributor.Inv maxP st →
        (((Distributor.onSourceLines maxP st pending).2.1 = true →
            (∀ i < st.numSinks, pending i = true) ∧ st.numSinks < maxP ∧
              (Distributor.onSourceLines maxP st pending).1.numSinks =
                st.numSinks + 1 ∧
              (Distributor.onSourceLines maxP st pending).2.2 = st.numSinks) ∧
          ((Distributor.onSourceLines maxP st pending).2.1 = false →
            (Distributor.onSourceLines maxP st pending).1.numSinks =
                st.numSinks ∧
              (Distributor.onSourceLines maxP st pending).2.2 <
                st.numSinks))) ∧
      Distributor.DEFAULT_MAX_PROCESSES = 5 := by
  refine ⟨(Distributor.runDistributor_inv maxP events).1, ?_, rfl⟩
  intro st pending hinv
  cases hscan : (if st.numSinks ≠ 0 then
      Distributor.scanReady pending st.numSinks st.nextSink else none) with
  | some i =>
    have hn : st.numSinks ≠ 0 := by
      by_contra h0
      rw [if_neg (by simpa using h0)] at hscan
      cases hscan
    have hsr : Distributor.scanReady pending st.numSinks st.nextSink = some i := by
      rwa [if_pos hn] at hscan
    rw [Distributor.onSourceLines_eq_of_scan_some hscan]
    exact ⟨(fun h => nomatch h), fun _ => ⟨rfl, Distributor.scanReady_lt hsr⟩⟩
  | none =>
    by_cases hlt : st.numSinks < maxP
    · rw [Distributor.onSourceLines_eq_of_scan_none_spawn hscan hlt]
      refine ⟨fun _ => ⟨?_, hlt, rfl, rfl⟩, (fun h => nomatch h)⟩
      by_cases hn : st.numSinks = 0
      · intro i hi; rw [hn] at hi; cases hi
      · have hsr : Distributor.scanReady pending st.numSinks st.nextSink = none := by
          rwa [if_pos hn] at hscan
        exact Distributor.scanReady_none hsr
    · rw [Distributor.onSourceLines_eq_of_scan_none_full hscan hlt]
      refine ⟨(fun h => nomatch h), fun _ => ⟨rfl, ?_⟩⟩
      have hn : 0 < st.numSinks := by omega
      exact hinv.2 hn

/-- Witness for `distributor_spawn_bound` at `max_processes = 5` and two
all-busy events. -/
theorem distributor_spawn_bound_witness :
    1 ≤ 5 ∧
      ((Distributor.runDistributor 5
          [fun (_ : Nat) => true, fun (_ : Nat) => true]).numSinks ≤ 5 ∧
        (∀ (st : Distributor.DistState) (pending : Nat → Bool),
          Distributor.Inv 5 st →
          (((Distributor.onSourceLines 5 st pending).2.1 = true →
              (∀ i < st.numSinks, pending i = true) ∧ st.numSinks < 5 ∧
                (Distributor.onSourceLines 5 st pending).1.numSinks =
                  st.numSinks + 1 ∧
                (Distributor.onSourceLines 5 st pending).2.2 = st.numSinks) ∧
            ((Distributor.onSourceLines 5 st pending).2.1 = false →
              (Distributor.onSourceLines 5 st pending).1.numSinks =
                  st.numSinks ∧
                (Distributor.onSourceLines 5 st pending).2.2 <
                  st.numSinks))) ∧
        Distributor.DEFAULT_MAX_PROCESSES = 5) :=
  ⟨by decide, distributor_spawn_bound 5 (by decide)
    [fun (_ : Nat) => true, fun (_ : Nat) => true]⟩

/-!
## Differ stage (src/differ_process.py, `create`)

Input lines come from the fetcher as `first SP pkg SP archive_path SP
filename LF`.  The differ splits each line on every space, extracts the
archive when `first == "T"`, then checks `lexists` of
`extract_path + filename` and otherwise runs `diff -u`.  A crash
(`IndexError` on an empty line or on fewer than three fields) aborts the
process before the final count is written.  At EOF it writes
`str(discrepancies)` — with no trailing newline — to its output stream.
-/

namespace DifferProcess

structure FetchRec where
  first : Bool
  pkgname : PyStr
  path : PyStr
  filename : PyStr
deriving DecidableEq

inductive LineResult where
  | crash
  | skip
  | record (r : FetchRec)
deriving DecidableEq

/-- POSIX `os.path.join` as used for `extract_path`. -/
def pyJoin (a b : PyStr) : PyStr :=
  if b.head? = some '/' then b
  else if a = [] then b
  else if a.getLast? = some '/' then a ++ b
  else a ++ '/' :: b

/-- Parsing of one differ input line: `line[-1]` check, `line[:-1].split(" ")`,
fields `parts[0]`, `parts[1]`, `parts[2]`, `" ".join(parts[3:])`. -/
def parseDifferLine (line : PyStr) : LineResult :=
  match line.getLast? with
  | none => .crash
  | some c =>
    if c ≠ '\n' then .skip
    else
      match PyOps.splitOnChar ' ' line.dropLast with
      | p0 :: p1 :: p2 :: rest =>
        .record ⟨p0 = "T".toList, p1, p2, PyOps.joinOn ' ' rest⟩
      | _ => .crash

structure DifferState where
  discrepancies : Nat
  extractions : List (PyStr × PyStr × PyStr)
deriving DecidableEq

structure DifferEnv where
  extractionDir : PyStr
  lexists : PyStr → Bool
  diffExit : PyStr → PyStr → Int

/-- Processing of one input line by the differ loop.  `none` models the
uncaught `IndexError` that kills the process. -/
def differStep (env : DifferEnv) (st : DifferState) (line : PyStr) :
    Option DifferState :=
  match parseDifferLine line with
  | .crash => none
  | .skip => some st
  | .record r =>
    let extractPath := pyJoin env.extractionDir r.pkgname
    let st1 := if r.first
      then { st with
              extractions := st.extractions ++ [(r.pkgname, r.path, extractPath)] }
      else st
    let extractedFilename := extractPath ++ r.filename
    if env.lexists extractedFilename = false then
      some { st1 with discrepancies := st1.discrepancies + 1 }
    else if env.diffExit extractedFilename r.filename ≠ 0 then
      some { st1 with discrepancies := st1.discrepancies + 1 }
    else some st1

def runDiffer (env : DifferEnv) : List PyStr → DifferState → Option DifferState
  | [], st => some st
  | l :: ls, st =>
    match differStep env st l with
    | none => none
    | some st' => runDiffer env ls st'

/-- The whole differ stage: process all input lines, then write the final
count `str(discrepancies)` to the output stream. -/
def differOutput (env : DifferEnv) (input : List PyStr) :
    Option (PyStr × DifferState) :=
  (runDiffer env input ⟨0, []⟩).map
    (fun st => ((Nat.repr st.discrepancies).toList, st))

/-- The record parsed from a line, when the line parses. -/
def recordOf (line : PyStr) : Option FetchRec :=
  match parseDifferLine line with
  | .record r => some r
  | _ => none

/-- Whether a record counts as a discrepancy: the path is absent from the
extracted archive, or the external diff exits nonzero. -/
def isDiscrepancy (env : DifferEnv) (r : FetchRec) : Bool :=
  let extractedFilename := pyJoin env.extractionDir r.pkgname ++ r.filename
  env.lexists extractedFilename = false ∨
    env.diffExit extractedFilename r.filename ≠ 0

/-- Reference count: records whose path is missing from the archive or
whose diff exits nonzero. -/
def specCount (env : DifferEnv) (input : List PyStr) : Nat :=
  ((input.filterMap recordOf).filter (isDiscrepancy env)).length

/-- Reference extraction sequence: one extraction per `T` record. -/
def specExtractions (env : DifferEnv) (input : List PyStr) :
    List (PyStr × PyStr × PyStr) :=
  ((input.filterMap recordOf).filter (fun r => r.first)).map
    (fun r => (r.pkgname, r.path, pyJoin env.extractionDir r.pkgname))

theorem runDiffer_spec (env : DifferEnv) :
    ∀ (input : List PyStr) (st : DifferState),
    (∀ l ∈ input, parseDifferLine l ≠ .crash) →
    runDiffer env input st =
      some ⟨st.discrepancies + specCount env input,
        st.extractions ++ specExtractions env input⟩ := by
  intro input
  induction input with
  | nil =>
    intro st _
    simp [runDiffer, specCount, specExtractions]
  | cons l ls ih =>
    intro st hwf
    have hl : parseDifferLine l ≠ .crash := hwf l (List.mem_cons_self _ _)
    have hls : ∀ x ∈ ls, parseDifferLine x ≠ .crash :=
      fun x hx => hwf x (List.mem_cons_of_mem _ hx)
    rw [runDiffer]
    cases hp : parseDifferLine l with
    | crash => exact absurd hp hl
    | skip =>
      have hstep : differStep env st l = some st := by
        rw [differStep, hp]
      rw [hstep]
      show runDiffer env ls st = _
      rw [ih st hls]
      have hc : specCount env (l :: ls) = specCount env ls := by
        simp [specCount, recordOf, List.filterMap_cons, hp]
      have he : specExtractions env (l :: ls) = specExtractions env ls := by
        simp [specExtractions, recordOf, List.filterMap_cons, hp]
      rw [hc, he]
    | record r =>
      have hrec : recordOf l = some r := by rw [recordOf, hp]
      have hc : specCount env (l :: ls) =
          (if isDiscrepancy env r then 1 else 0) + specCount env ls := by
        simp only [specCount, List.filterMap_cons, hrec]
        by_cases hd : isDiscrepancy env r
        · simp [hd, Nat.add_comm]
        · simp [hd]
      have he : specExtractions env (l :: ls) =
          (if r.first then
            [(r.pkgname, r.path, pyJoin env.extractionDir r.pkgname)] else []) ++
            specExtractions env ls := by
        simp only [specExtractions, List.filterMap_cons, hrec]
        by_cases hf : r.first
        · simp [hf]
        · simp [hf]
      have hstep : differStep env st l =
          some ⟨st.discrepancies + (if isDiscrepancy env r then 1 else 0),
            st.extractions ++ (if r.first then
              [(r.pkgname, r.path, pyJoin env.extractionDir r.pkgname)]
            else [])⟩ := by
        rw [differStep, hp]
        simp only [isDiscrepancy]
        by_cases hf : r.first
        · simp only [if_pos hf]
          by_cases hlex :
              env.lexists (pyJoin env.extractionDir r.pkgname ++ r.filename) = false
          · simp [hlex]
          · by_cases hdiff : env.diffExit
                (pyJoin env.extractionDir r.pkgname ++ r.filename) r.filename ≠ 0
            · simp [hlex, hdiff]
            · simp [hlex, hdiff]
        · simp only [if_neg hf]
          by_cases hlex :
              env.lexists (pyJoin env.extractionDir r.pkgname ++ r.filename) = false
          · simp [hlex]
          · by_cases hdiff : env.diffExit
                (pyJoin env.extractionDir r.pkgname ++ r.filename) r.filename ≠ 0
            · simp [hlex, hdiff]
            · simp [hlex, hdiff]
      rw [hstep]
      show runDiffer env ls _ = _
      rw [ih _ hls, hc, he]
      refine congrArg some ?_
      simp only [DifferState.mk.injEq]
      exact ⟨by omega, by rw [List.append_assoc]⟩

end DifferProcess

/-- **C5 (amended).** When every differ input line parses (no uncaught
`IndexError`), the differ reaches EOF and writes the final discrepancy count
to its output stream as a decimal number — with no trailing newline — and
that count equals the number of records for which either the path was absent
from the extracted archive or the external diff exited nonzero. -/
theorem differ_final_count (env : DifferProcess.DifferEnv) (input : List PyStr)
    (h : ∀ l ∈ input, DifferProcess.parseDifferLine l ≠ .crash) :
    DifferProcess.differOutput env input =
      some ((Nat.repr (DifferProcess.specCount env input)).toList,
        ⟨DifferProcess.specCount env input,
          DifferProcess.specExtractions env input⟩) := by
  rw [DifferProcess.differOutput, DifferProcess.runDiffer_spec env input _ h]
  simp

/-- Witness for `differ_final_count`: one record whose path is missing from
the extracted archive. -/
theorem differ_final_count_witness :
    (∀ l ∈ ["T pkg /a/p.deb /usr/bin/q\n".toList],
        DifferProcess.parseDifferLine l ≠ DifferProcess.LineResult.crash) ∧
      DifferProcess.differOutput
          ⟨"/tmp/x".toList, fun (_ : PyStr) => false,
            fun (_ : PyStr) (_ : PyStr) => (0 : Int)⟩
          ["T pkg /a/p.deb /usr/bin/q\n".toList] =
        some ((Nat.repr (DifferProcess.specCount
            ⟨"/tmp/x".toList, fun (_ : PyStr) => false,
              fun (_ : PyStr) (_ : PyStr) => (0 : Int)⟩
            ["T pkg /a/p.deb /usr/bin/q\n".toList])).toList,
          ⟨DifferProcess.specCount
              ⟨"/tmp/x".toList, fun (_ : PyStr) => false,
                fun (_ : PyStr) (_ : PyStr) => (0 : Int)⟩
              ["T pkg /a/p.deb /usr/bin/q\n".toList],
            DifferProcess.specExtractions
              ⟨"/tmp/x".toList, fun (_ : PyStr) => false,
                fun (_ : PyStr) (_ : PyStr) => (0 : Int)⟩
              ["T pkg /a/p.deb /usr/bin/q\n".toList]⟩) :=
  ⟨by decide, differ_final_count
    ⟨"/tmp/x".toList, fun (_ : PyStr) => false,
      fun (_ : PyStr) (_ : PyStr) => (0 : Int)⟩
    ["T pkg /a/p.deb /usr/bin/q\n".toList] (by decide)⟩

/-- **C5 counterexample.** The differ's final write has no trailing newline:
at EOF on an empty input stream it writes exactly `"0"`, which differs from
the `"0\n"` the claim describes. -/
theorem differ_output_no_trailing_newline :
    (DifferProcess.differOutput
        ⟨"/tmp/x".toList, fun (_ : PyStr) => true,
          fun (_ : PyStr) (_ : PyStr) => (0 : Int)⟩ []).map Prod.fst =
        some "0".toList ∧
      "0".toList ≠ "0\n".toList := by
  exact ⟨rfl, by decide⟩

/-!
## Fetcher stage (src/apt_diff/apt_fetcher_process.py, `AptFetcher`)

`__fetch_package` keeps a `pkg → path` dictionary: on the first record for a
package it calls `fetch_archive` (oracle `fetch`, `none` modelling a `None`
return) and tags the emitted record `T`; on later records it reuses the
stored path and tags `F`; falsy paths (failed acquisitions) emit nothing.
-/

namespace AptFetcher

structure FetchState where
  pkgPaths : List (PyStr × Option PyStr)
  calls : List PyStr
  output : List DifferProcess.FetchRec

/-- Lookup in the `__pkg_paths` dictionary (insertion-ordered, unique keys). -/
def dictFind : List (PyStr × Option PyStr) → PyStr → Option (Option PyStr)
  | [], _ => none
  | (k, v) :: rest, p => if k = p then some v else dictFind rest p

/-- `AptFetcher.__fetch_package`. -/
def fetchPackage (fetch : PyStr → Option PyStr) (st : FetchState)
    (pkgname filename : PyStr) : FetchState :=
  match dictFind st.pkgPaths pkgname with
  | none =>
    let path := fetch pkgname
    let st' := { st with pkgPaths := st.pkgPaths ++ [(pkgname, path)],
                         calls := st.calls ++ [pkgname] }
    match path with
    | none => st'
    | some s =>
      if s.isEmpty then st'
      else { st' with
              output := st'.output ++ [⟨true, pkgname, s, filename⟩] }
  | some path =>
    match path with
    | none => st
    | some s =>
      if s.isEmpty then st
      else { st with output := st.output ++ [⟨false, pkgname, s, filename⟩] }

/-- The fetcher state after consuming a sequence of `(pkg, path)` records. -/
def runFetcher (fetch : PyStr → Option PyStr)
    (records : List (PyStr × PyStr)) : FetchState :=
  records.foldl (fun st r => fetchPackage fetch st r.1 r.2) ⟨[], [], []⟩

/-- Acquisition outcome as the fetcher observes it: `some s` iff
`fetch_archive` returned a non-falsy path `s`. -/
def fetchOk (fetch : PyStr → Option PyStr) (p : PyStr) : Option PyStr :=
  match fetch p with
  | none => none
  | some s => if s.isEmpty then none else some s

/-- The filenames submitted for package `p`, in input order. -/
def filenamesFor (p : PyStr) (records : List (PyStr × PyStr)) : List PyStr :=
  (records.filter (fun r => decide (r.1 = p))).map Prod.snd

/-- Reference output for package `p`: nothing unless acquisition succeeded
and `p` occurred; otherwise one `T` record for the first filename followed
by `F` records for the rest. -/
def specOutputFor (fetch : PyStr → Option PyStr)
    (records : List (PyStr × PyStr)) (p : PyStr) :
    List DifferProcess.FetchRec :=
  match fetchOk fetch p with
  | none => []
  | some s =>
    match filenamesFor p records with
    | [] => []
    | f :: fs => ⟨true, p, s, f⟩ :: fs.map (fun g => ⟨false, p, s, g⟩)

/-- The fetcher-output records concerning package `p`, in emission order. -/
def outputFor (p : PyStr) (out : List DifferProcess.FetchRec) :
    List DifferProcess.FetchRec :=
  out.filter (fun r => decide (r.pkgname = p))

theorem dictFind_append (l m : List (PyStr × Option PyStr)) (p : PyStr) :
    dictFind (l ++ m) p =
      match dictFind l p with
      | some v => some v
      | none => dictFind m p := by
  induction l with
  | nil => simp [dictFind]
  | cons kv rest ih =>
    obtain ⟨k, v⟩ := kv
    by_cases hk : k = p
    · simp [dictFind, hk]
    · simp [dictFind, hk, ih]

theorem filenamesFor_append (p : PyStr) (l : List (PyStr × PyStr))
    (r : PyStr × PyStr) :
    filenamesFor p (l ++ [r]) =
      filenamesFor p l ++ (if r.1 = p then [r.2] else []) := by
  rw [filenamesFor, List.filter_append, List.map_append]
  by_cases h : r.1 = p
  · simp [filenamesFor, h]
  · simp [filenamesFor, h]

theorem outputFor_append (p : PyStr) (l : List DifferProcess.FetchRec)
    (r : DifferProcess.FetchRec) :
    outputFor p (l ++ [r]) =
      outputFor p l ++ (if r.pkgname = p then [r] else []) := by
  rw [outputFor, List.filter_append]
  by_cases h : r.pkgname = p
  · simp [outputFor, h]
  · simp [outputFor, h]

theorem filenamesFor_ne_nil_iff (p : PyStr) (records : List (PyStr × PyStr)) :
    filenamesFor p records ≠ [] ↔ p ∈ records.map Prod.fst := by
  rw [filenamesFor]
  constructor
  · intro h
    rcases hf : List.filter (fun r => decide (r.1 = p)) records with _ | ⟨r, rest⟩
    · rw [hf] at h; simp at h
    · have hr : r ∈ List.filter (fun r => decide (r.1 = p)) records := by
        rw [hf]; exact List.mem_cons_self _ _
      have := List.of_mem_filter hr
      have hmem := List.mem_of_mem_filter hr
      exact List.mem_map.mpr ⟨r, hmem, by simpa using this⟩
  · intro h hnil
    obtain ⟨r, hr, hrp⟩ := List.mem_map.mp h
    have : r ∈ List.filter (fun r => decide (r.1 = p)) records :=
      List.mem_filter.mpr ⟨hr, by simpa using hrp⟩
    rw [List.map_eq_nil_iff] at hnil
    rw [hnil] at this
    cases this

end AptFetcher

namespace AptFetcher

theorem filenamesFor_eq_nil (p : PyStr) (records : List (PyStr × PyStr))
    (h : p ∉ records.map Prod.fst) : filenamesFor p records = [] := by
  by_contra hne
  exact h ((filenamesFor_ne_nil_iff p records).mp hne)

theorem specOutputFor_fetch_none (fetch : PyStr → Option PyStr)
    (l : List (PyStr × PyStr)) (q : PyStr) (hok : fetchOk fetch q = none) :
    specOutputFor fetch l q = [] := by
  rw [specOutputFor, hok]

theorem specOutputFor_not_mem (fetch : PyStr → Option PyStr)
    (l : List (PyStr × PyStr)) (q : PyStr) (h : q ∉ l.map Prod.fst) :
    specOutputFor fetch l q = [] := by
  rw [specOutputFor]
  cases hok : fetchOk fetch q with
  | none => rfl
  | some s => rw [filenamesFor_eq_nil q l h]

theorem specOutputFor_append_ne (fetch : PyStr → Option PyStr)
    (l : List (PyStr × PyStr)) (r : PyStr × PyStr) (p : PyStr) (h : r.1 ≠ p) :
    specOutputFor fetch (l ++ [r]) p = specOutputFor fetch l p := by
  rw [specOutputFor, specOutputFor, filenamesFor_append, if_neg h,
    List.append_nil]

theorem specOutputFor_append_self_sub (fetch : PyStr → Option PyStr)
    (l : List (PyStr × PyStr)) (q f s : PyStr)
    (hok : fetchOk fetch q = some s) (hmem : q ∈ l.map Prod.fst) :
    specOutputFor fetch (l ++ [(q, f)]) q =
      specOutputFor fetch l q ++ [⟨false, q, s, f⟩] := by
  have hne : filenamesFor q l ≠ [] := (filenamesFor_ne_nil_iff q l).mpr hmem
  rcases hf : filenamesFor q l with _ | ⟨f₀, fs⟩
  · exact absurd hf hne
  · rw [specOutputFor, specOutputFor, hok, filenamesFor_append, hf,
      if_pos rfl]
    simp [List.map_append]

theorem specOutputFor_append_self_first (fetch : PyStr → Option PyStr)
    (l : List (PyStr × PyStr)) (q f s : PyStr)
    (hok : fetchOk fetch q = some s) (hmem : q ∉ l.map Prod.fst) :
    specOutputFor fetch (l ++ [(q, f)]) q = [⟨true, q, s, f⟩] := by
  rw [specOutputFor, hok, filenamesFor_append, filenamesFor_eq_nil q l hmem,
    if_pos rfl]
  simp

theorem fetchPackage_step (fetch : PyStr → Option PyStr)
    (processed : List (PyStr × PyStr)) (st : FetchState) (q f : PyStr)
    (H1 : ∀ p, dictFind st.pkgPaths p =
        if p ∈ processed.map Prod.fst then some (fetch p) else none)
    (H2 : ∀ p, st.calls.count p =
        if p ∈ processed.map Prod.fst then 1 else 0)
    (H3 : ∀ p, outputFor p st.output = specOutputFor fetch processed p) :
    (∀ p, dictFind (fetchPackage fetch st q f).pkgPaths p =
        if p ∈ (processed ++ [(q, f)]).map Prod.fst then some (fetch p)
        else none) ∧
      (∀ p, (fetchPackage fetch st q f).calls.count p =
        if p ∈ (processed ++ [(q, f)]).map Prod.fst then 1 else 0) ∧
      (∀ p, outputFor p (fetchPackage fetch st q f).output =
        specOutputFor fetch (processed ++ [(q, f)]) p) := by
  have hmem : ∀ p, p ∈ (processed ++ [(q, f)]).map Prod.fst ↔
      p ∈ processed.map Prod.fst ∨ p = q := by
    intro p
    simp [List.map_append]
  by_cases hq : q ∈ processed.map Prod.fst
  · -- the package was seen before: the dictionary hit path
    have hfind : dictFind st.pkgPaths q = some (fetch q) := by
      rw [H1 q, if_pos hq]
    have hifsame : ∀ p, p ∈ (processed ++ [(q, f)]).map Prod.fst ↔
        p ∈ processed.map Prod.fst := by
      intro p
      by_cases hp : p = q
      · subst hp
        simp [hmem p, hq]
      · simp [hmem p, hp]
    cases hfq : fetch q with
    | none =>
      have hst : fetchPackage fetch st q f = st := by
        rw [fetchPackage, hfind, hfq]
      rw [hst]
      refine ⟨fun p => by rw [H1 p]; exact (if_congr (hifsame p) rfl rfl).symm,
        fun p => by rw [H2 p]; exact (if_congr (hifsame p) rfl rfl).symm,
        fun p => ?_⟩
      by_cases hp : q = p
      · subst hp
        have hok : fetchOk fetch q = none := by rw [fetchOk, hfq]
        rw [specOutputFor_fetch_none fetch _ q hok, H3 q,
          specOutputFor_fetch_none fetch _ q hok]
      · rw [specOutputFor_append_ne fetch processed (q, f) p hp, H3 p]
    | some s =>
      by_cases hs : s.isEmpty
      · have hst : fetchPackage fetch st q f = st := by
          rw [fetchPackage, hfind, hfq]
          simp [hs]
        rw [hst]
        refine ⟨fun p => by rw [H1 p]; exact (if_congr (hifsame p) rfl rfl).symm,
          fun p => by rw [H2 p]; exact (if_congr (hifsame p) rfl rfl).symm,
          fun p => ?_⟩
        by_cases hp : q = p
        · subst hp
          have hok : fetchOk fetch q = none := by rw [fetchOk, hfq]; simp [hs]
          rw [specOutputFor_fetch_none fetch _ q hok, H3 q,
            specOutputFor_fetch_none fetch _ q hok]
        · rw [specOutputFor_append_ne fetch processed (q, f) p hp, H3 p]
      · have hst : fetchPackage fetch st q f =
            { st with output := st.output ++ [⟨false, q, s, f⟩] } := by
          rw [fetchPackage, hfind, hfq]
          simp [hs]
        rw [hst]
        refine ⟨fun p => by rw [H1 p]; exact (if_congr (hifsame p) rfl rfl).symm,
          fun p => by rw [H2 p]; exact (if_congr (hifsame p) rfl rfl).symm,
          fun p => ?_⟩
        show outputFor p (st.output ++ [⟨false, q, s, f⟩]) = _
        rw [outputFor_append]
        by_cases hp : q = p
        · subst hp
          have hok : fetchOk fetch q = some s := by rw [fetchOk, hfq]; simp [hs]
          rw [specOutputFor_append_self_sub fetch processed q f s hok hq, H3 q]
          simp
        · rw [if_neg hp, List.append_nil, H3 p,
            specOutputFor_append_ne fetch processed (q, f) p hp]
  · -- first record for the package: `fetch_archive` is called
    have hfind : dictFind st.pkgPaths q = none := by
      rw [H1 q, if_neg hq]
    have hd : ∀ p, dictFind (st.pkgPaths ++ [(q, fetch q)]) p =
        if p ∈ (processed ++ [(q, f)]).map Prod.fst then some (fetch p)
        else none := by
      intro p
      rw [dictFind_append, H1 p]
      by_cases hp : p = q
      · subst hp
        rw [if_neg hq, if_pos ((hmem p).mpr (Or.inr rfl))]
        simp [dictFind]
      · by_cases hpm : p ∈ processed.map Prod.fst
        · rw [if_pos hpm, if_pos ((hmem p).mpr (Or.inl hpm))]
        · rw [if_neg hpm, if_neg (by simp [hmem p, hpm, hp])]
          have hqp : ¬ q = p := fun h => hp h.symm
          simp [dictFind, hqp]
    have hc : ∀ p, (st.calls ++ [q]).count p =
        if p ∈ (processed ++ [(q, f)]).map Prod.fst then 1 else 0 := by
      intro p
      rw [List.count_append, H2 p]
      by_cases hp : p = q
      · subst hp
        rw [if_neg hq, if_pos ((hmem p).mpr (Or.inr rfl))]
        simp
      · by_cases hpm : p ∈ processed.map Prod.fst
        · rw [if_pos hpm, if_pos ((hmem p).mpr (Or.inl hpm))]
          have hz : List.count p [q] = 0 :=
            List.count_eq_zero.mpr (by simp [hp])
          omega
        · rw [if_neg hpm, if_neg (by simp [hmem p, hpm, hp])]
          have hz : List.count p [q] = 0 :=
            List.count_eq_zero.mpr (by simp [hp])
          omega
    cases hfq : fetch q with
    | none =>
      have hst : fetchPackage fetch st q f =
          { st with pkgPaths := st.pkgPaths ++ [(q, fetch q)],
                    calls := st.calls ++ [q] } := by
        rw [fetchPackage, hfind, hfq]
      rw [hst]
      refine ⟨hd, hc, fun p => ?_⟩
      show outputFor p st.output = _
      by_cases hp : q = p
      · subst hp
        have hok : fetchOk fetch q = none := by rw [fetchOk, hfq]
        rw [specOutputFor_fetch_none fetch _ q hok, H3 q,
          specOutputFor_not_mem fetch processed q hq]
      · rw [specOutputFor_append_ne fetch processed (q, f) p hp, H3 p]
    | some s =>
      by_cases hs : s.isEmpty
      · have hst : fetchPackage fetch st q f =
            { st with pkgPaths := st.pkgPaths ++ [(q, fetch q)],
                      calls := st.calls ++ [q] } := by
          rw [fetchPackage, hfind, hfq]
          simp [hs]
        rw [hst]
        refine ⟨hd, hc, fun p => ?_⟩
        show outputFor p st.output = _
        by_cases hp : q = p
        · subst hp
          have hok : fetchOk fetch q = none := by rw [fetchOk, hfq]; simp [hs]
          rw [specOutputFor_fetch_none fetch _ q hok, H3 q,
            specOutputFor_not_mem fetch processed q hq]
        · rw [specOutputFor_append_ne fetch processed (q, f) p hp, H3 p]
      · have hst : fetchPackage fetch st q f =
            { st with pkgPaths := st.pkgPaths ++ [(q, fetch q)],
                      calls := st.calls ++ [q],
                      output := st.output ++ [⟨true, q, s, f⟩] } := by
          rw [fetchPackage, hfind, hfq]
          simp [hs]
        rw [hst]
        refine ⟨hd, hc, fun p => ?_⟩
        show outputFor p (st.output ++ [⟨true, q, s, f⟩]) = _
        rw [outputFor_append]
        by_cases hp : q = p
        · subst hp
          have hok : fetchOk fetch q = some s := by rw [fetchOk, hfq]; simp [hs]
          rw [specOutputFor_append_self_first fetch processed q f s hok hq,
            H3 q, specOutputFor_not_mem fetch processed q hq]
          simp
        · rw [if_neg hp, List.append_nil, H3 p,
            specOutputFor_append_ne fetch processed (q, f) p hp]

end AptFetcher

namespace AptFetcher

theorem runFetcher_spec (fetch : PyStr → Option PyStr)
    (records : List (PyStr × PyStr)) :
    (∀ p, dictFind (runFetcher fetch records).pkgPaths p =
        if p ∈ records.map Prod.fst then some (fetch p) else none) ∧
      (∀ p, (runFetcher fetch records).calls.count p =
        if p ∈ records.map Prod.fst then 1 else 0) ∧
      (∀ p, outputFor p (runFetcher fetch records).output =
        specOutputFor fetch records p) := by
  have main : ∀ (recs processed : List (PyStr × PyStr)) (st : FetchState),
      (∀ p, dictFind st.pkgPaths p =
          if p ∈ processed.map Prod.fst then some (fetch p) else none) →
      (∀ p, st.calls.count p =
          if p ∈ processed.map Prod.fst then 1 else 0) →
      (∀ p, outputFor p st.output = specOutputFor fetch processed p) →
      (∀ p, dictFind
            (recs.foldl (fun st r => fetchPackage fetch st r.1 r.2) st).pkgPaths
            p =
          if p ∈ (processed ++ recs).map Prod.fst then some (fetch p)
          else none) ∧
        (∀ p, (recs.foldl (fun st r => fetchPackage fetch st r.1 r.2)
              st).calls.count p =
          if p ∈ (processed ++ recs).map Prod.fst then 1 else 0) ∧
        (∀ p, outputFor p
            (recs.foldl (fun st r => fetchPackage fetch st r.1 r.2) st).output =
          specOutputFor fetch (processed ++ recs) p) := by
    intro recs
    induction recs with
    | nil =>
      intro processed st h1 h2 h3
      rw [List.append_nil]
      exact ⟨h1, h2, h3⟩
    | cons r rest ih =>
      intro processed st h1 h2 h3
      obtain ⟨q, f⟩ := r
      obtain ⟨g1, g2, g3⟩ := fetchPackage_step fetch processed st q f h1 h2 h3
      have hres := ih (processed ++ [(q, f)]) (fetchPackage fetch st q f) g1 g2 g3
      rw [List.foldl_cons]
      have hassoc : processed ++ (q, f) :: rest = (processed ++ [(q, f)]) ++ rest := by
        simp
      rw [hassoc]
      exact hres
  have hinit := main records [] ⟨[], [], []⟩
    (fun p => by simp [dictFind]) (fun p => by simp)
    (fun p => by rw [specOutputFor_not_mem fetch [] p (by simp)]; rfl)
  simpa [runFetcher] using hinit

/-- The line `"%s %s %s %s\n" % (first, pkgname, path, filename)` written to
the differ. -/
def serializeRec (r : DifferProcess.FetchRec) : PyStr :=
  (if r.first then "T".toList else "F".toList) ++
    ' ' :: (r.pkgname ++ ' ' :: (r.path ++ ' ' :: (r.filename ++ ['\n'])))

theorem parse_serializeRec (r : DifferProcess.FetchRec)
    (hpkg : ' ' ∉ r.pkgname) (hpath : ' ' ∉ r.path) :
    DifferProcess.parseDifferLine (serializeRec r) =
      DifferProcess.LineResult.record r := by
  set tag : PyStr := if r.first then "T".toList else "F".toList with htag
  have hsplit : serializeRec r =
      (tag ++ ' ' :: (r.pkgname ++ ' ' :: (r.path ++ ' ' :: r.filename))) ++
        ['\n'] := by
    rw [serializeRec, ← htag]
    simp
  rw [DifferProcess.parseDifferLine, hsplit, List.getLast?_concat,
    List.dropLast_concat]
  have htagsp : ' ' ∉ tag := by
    rw [htag]
    cases r.first <;> decide
  rw [PyOps.splitOnChar_append ' ' tag _ htagsp,
    PyOps.splitOnChar_append ' ' r.pkgname _ hpkg,
    PyOps.splitOnChar_append ' ' r.path _ hpath]
  simp only [if_neg (by decide : ¬ ('\n' ≠ '\n'))]
  have hfst : (decide (tag = "T".toList)) = r.first := by
    rw [htag]
    cases r.first <;> decide
  rw [PyOps.joinOn_splitOnChar, hfst]

theorem filterMap_recordOf_serialize
    (out : List DifferProcess.FetchRec)
    (h : ∀ r ∈ out, ' ' ∉ r.pkgname ∧ ' ' ∉ r.path) :
    (out.map serializeRec).filterMap DifferProcess.recordOf = out := by
  induction out with
  | nil => rfl
  | cons r rest ih =>
    have hr := h r (List.mem_cons_self _ _)
    have hrec : DifferProcess.recordOf (serializeRec r) = some r := by
      rw [DifferProcess.recordOf, parse_serializeRec r hr.1 hr.2]
    simp only [List.map_cons, List.filterMap_cons, hrec]
    rw [ih fun x hx => h x (List.mem_cons_of_mem _ hx)]

theorem specOutputFor_filter_first_length (fetch : PyStr → Option PyStr)
    (records : List (PyStr × PyStr)) (p : PyStr) :
    ((specOutputFor fetch records p).filter (fun r => r.first)).length ≤ 1 := by
  rw [specOutputFor]
  cases hok : fetchOk fetch p with
  | none => simp
  | some s =>
    cases hf : filenamesFor p records with
    | nil => simp
    | cons f fs =>
      simp only [List.filter_cons]
      have hmapf : (fs.map
          (fun g => (⟨false, p, s, g⟩ : DifferProcess.FetchRec))).filter
            (fun r => r.first) = [] := by
        rw [List.filter_map]
        simp
      simp [hmapf]

end AptFetcher

/-- **C1.** For every sequence of `(pkg, path)` records consumed by the
fetcher: the archive acquirer is called at most once per distinct package
name; for each package the emitted records are exactly one `T` record —
present iff acquisition succeeded and the package occurred in the input —
followed only by `F` records (so the `T` record strictly precedes every `F`
record for that package); and the differ, fed the fetcher's serialized
output, extracts exactly at `T` records, hence at most once per package. -/
theorem fetcher_differ_once_per_package (fetch : PyStr → Option PyStr)
    (records : List (PyStr × PyStr)) (env : DifferProcess.DifferEnv)
    (hw : ∀ r ∈ (AptFetcher.runFetcher fetch records).output,
        ' ' ∉ r.pkgname ∧ ' ' ∉ r.path) :
    (∀ p, (AptFetcher.runFetcher fetch records).calls.count p ≤ 1) ∧
      (∀ p, AptFetcher.outputFor p
          (AptFetcher.runFetcher fetch records).output =
        AptFetcher.specOutputFor fetch records p) ∧
      ∃ st : DifferProcess.DifferState,
        DifferProcess.runDiffer env
            ((AptFetcher.runFetcher fetch records).output.map
              AptFetcher.serializeRec) ⟨0, []⟩ = some st ∧
          st.extractions =
            (((AptFetcher.runFetcher fetch records).output.filter
                (fun r => r.first)).map
              (fun r => (r.pkgname, r.path,
                DifferProcess.pyJoin env.extractionDir r.pkgname))) ∧
          ∀ p, (st.extractions.filter (fun e => decide (e.1 = p))).length ≤ 1 := by
  obtain ⟨hdict, hcount, hout⟩ := AptFetcher.runFetcher_spec fetch records
  refine ⟨fun p => ?_, hout, ?_⟩
  · rw [hcount p]
    split <;> omega
  · set out := (AptFetcher.runFetcher fetch records).output with hdefout
    have hparse : ∀ l ∈ out.map AptFetcher.serializeRec,
        DifferProcess.parseDifferLine l ≠ DifferProcess.LineResult.crash := by
      intro l hl
      obtain ⟨r, hr, hrl⟩ := List.mem_map.mp hl
      obtain ⟨h1, h2⟩ := hw r hr
      rw [← hrl, AptFetcher.parse_serializeRec r h1 h2]
      intro hcon
      cases hcon
    refine ⟨⟨DifferProcess.specCount env (out.map AptFetcher.serializeRec),
      DifferProcess.specExtractions env (out.map AptFetcher.serializeRec)⟩,
      ?_, ?_, ?_⟩
    · rw [DifferProcess.runDiffer_spec env _ _ hparse]
      simp
    · show DifferProcess.specExtractions env (out.map AptFetcher.serializeRec) = _
      rw [DifferProcess.specExtractions,
        AptFetcher.filterMap_recordOf_serialize out hw]
    · intro p
      show ((DifferProcess.specExtractions env
          (out.map AptFetcher.serializeRec)).filter
            (fun e => decide (e.1 = p))).length ≤ 1
      rw [DifferProcess.specExtractions,
        AptFetcher.filterMap_recordOf_serialize out hw, List.filter_map,
        List.length_map]
      have hcomp : ((fun e : PyStr × PyStr × PyStr => decide (e.1 = p)) ∘
          (fun r : DifferProcess.FetchRec =>
            (r.pkgname, r.path, DifferProcess.pyJoin env.extractionDir
              r.pkgname))) = (fun r : DifferProcess.FetchRec =>
            decide (r.pkgname = p)) := by
        funext r
        rfl
      rw [hcomp, List.filter_comm]
      have : List.filter (fun r => decide (r.pkgname = p)) out =
          AptFetcher.specOutputFor fetch records p := hout p
      rw [this]
      exact AptFetcher.specOutputFor_filter_first_length fetch records p

/-- Witness for `fetcher_differ_once_per_package`: the same package `pkg`
submitted twice, acquisition succeeding with archive `/a/p.deb`. -/
theorem fetcher_differ_once_per_package_witness :
    (∀ r ∈ (AptFetcher.runFetcher
        (fun (_ : PyStr) => some "/a/p.deb".toList)
        [("pkg".toList, "/usr/bin/q".toList),
          ("pkg".toList, "/usr/share/doc".toList)]).output,
      ' ' ∉ r.pkgname ∧ ' ' ∉ r.path) ∧
      ((∀ p, (AptFetcher.runFetcher
          (fun (_ : PyStr) => some "/a/p.deb".toList)
          [("pkg".toList, "/usr/bin/q".toList),
            ("pkg".toList, "/usr/share/doc".toList)]).calls.count p ≤ 1) ∧
        (∀ p, AptFetcher.outputFor p
            (AptFetcher.runFetcher
              (fun (_ : PyStr) => some "/a/p.deb".toList)
              [("pkg".toList, "/usr/bin/q".toList),
                ("pkg".toList, "/usr/share/doc".toList)]).output =
          AptFetcher.specOutputFor (fun (_ : PyStr) => some "/a/p.deb".toList)
            [("pkg".toList, "/usr/bin/q".toList),
              ("pkg".toList, "/usr/share/doc".toList)] p) ∧
        ∃ st : DifferProcess.DifferState,
          DifferProcess.runDiffer
              ⟨"/tmp/x".toList, fun (_ : PyStr) => true,
                fun (_ : PyStr) (_ : PyStr) => (0 : Int)⟩
              ((AptFetcher.runFetcher
                  (fun (_ : PyStr) => some "/a/p.deb".toList)
                  [("pkg".toList, "/usr/bin/q".toList),
                    ("pkg".toList, "/usr/share/doc".toList)]).output.map
                AptFetcher.serializeRec) ⟨0, []⟩ = some st ∧
            st.extractions =
              (((AptFetcher.runFetcher
                  (fun (_ : PyStr) => some "/a/p.deb".toList)
                  [("pkg".toList, "/usr/bin/q".toList),
                    ("pkg".toList, "/usr/share/doc".toList)]).output.filter
                  (fun r => r.first)).map
                (fun r => (r.pkgname, r.path,
                  DifferProcess.pyJoin "/tmp/x".toList r.pkgname))) ∧
            ∀ p, (st.extractions.filter (fun e => decide (e.1 = p))).length ≤ 1) :=
  ⟨by decide, fetcher_differ_once_per_package
    (fun (_ : PyStr) => some "/a/p.deb".toList)
    [("pkg".toList, "/usr/bin/q".toList),
      ("pkg".toList, "/usr/share/doc".toList)]
    ⟨"/tmp/x".toList, fun (_ : PyStr) => true,
      fun (_ : PyStr) (_ : PyStr) => (0 : Int)⟩ (by decide)⟩

/-!
## Traversal driver: top-level case split (src/apt_diff/apt_diff.py,
`AptDiff.__do_check`, lines 236-292)

One level of `__do_check`'s dispatch on `(node, lexists)`, with the stat
results abstracted as booleans.  The claim concerns the `not node and
lexists` branch: `check_extras` guard, `within_symlink` guard, the
`ignore extras` default, and the `--no-ignore-extras` report.
-/

namespace AptDiffDriver

structure Counters where
  discrepancyCount : Nat
  errorCount : Nat
  ignoredExtrasCount : Nat
deriving DecidableEq

inductive Report where
  | missingPath (path owner : PyStr)
  | extraPathInDir (path parentOwner : PyStr)
  | extraPath (path : PyStr)
  | notFound (path : PyStr)
deriving DecidableEq

/-- Whether a report is one of the two `Extra path` messages. -/
def Report.isExtra : Report → Bool
  | .extraPathInDir _ _ => true
  | .extraPath _ => true
  | _ => false

/-- The `path = path + "/"` display tweak for directories. -/
def displayPath (isdir : Bool) (normpath : PyStr) : PyStr :=
  if isdir ∧ normpath.getLast? ≠ some '/' then normpath ++ ['/'] else normpath

/-- One level of `__do_check`: the four-way dispatch on the dpkg node and
`lexists`.  `node`/`parent` carry the owning `pkgname()` strings; the
returned boolean is true when control falls through to the
expect-file/expect-dir logic on the dpkg-owned, on-disk path. -/
def doCheckTop (noIgnoreExtras : Bool) (st : Counters) (node parent : Option PyStr)
    (withinSymlink checkExtras lexists isdir : Bool) (normpath : PyStr) :
    Counters × List Report × Bool :=
  let path := displayPath isdir normpath
  match node, lexists with
  | some owner, false =>
    ({ st with discrepancyCount := st.discrepancyCount + 1 },
      [.missingPath path owner], false)
  | none, true =>
    if checkExtras = false then (st, [], false)
    else if withinSymlink then (st, [], false)
    else if noIgnoreExtras = false then
      ({ st with ignoredExtrasCount := st.ignoredExtrasCount + 1 }, [], false)
    else
      match parent with
      | some powner =>
        ({ st with discrepancyCount := st.discrepancyCount + 1 },
          [.extraPathInDir path powner], false)
      | none =>
        ({ st with discrepancyCount := st.discrepancyCount + 1 },
          [.extraPath path], false)
  | none, false => (st, [.notFound path], false)
  | some _, true => (st, [], true)

end AptDiffDriver

/-- **C7.** For a path that exists on disk (`lexists`) but has no dpkg node,
in a path-check traversal (`check_extras = true`): with `within_symlink`
true the path is silently skipped (no report, no counter change, whatever
the extras flag); under the default flags (`no_ignore_extras = false`)
`ignored_extras_count` is incremented by exactly one, with no report and no
discrepancy change; and with `--no-ignore-extras` a single `Extra path`
report is emitted and the discrepancy count is incremented by exactly one. -/
theorem extra_path_branch (st : AptDiffDriver.Counters) (parent : Option PyStr)
    (isdir : Bool) (normpath : PyStr) :
    (∀ noIgnoreExtras : Bool,
        AptDiffDriver.doCheckTop noIgnoreExtras st none parent true true true
          isdir normpath = (st, [], false)) ∧
      AptDiffDriver.doCheckTop false st none parent false true true isdir
          normpath =
        ({ st with ignoredExtrasCount := st.ignoredExtrasCount + 1 }, [],
          false) ∧
      ∃ rep, AptDiffDriver.doCheckTop true st none parent false true true isdir
          normpath =
          ({ st with discrepancyCount := st.discrepancyCount + 1 }, [rep],
            false) ∧
        rep.isExtra = true := by
  refine ⟨fun _ => rfl, rfl, ?_⟩
  cases parent with
  | none =>
    exact ⟨.extraPath (AptDiffDriver.displayPath isdir normpath), rfl, rfl⟩
  | some powner =>
    exact ⟨.extraPathInDir (AptDiffDriver.displayPath isdir normpath) powner,
      rfl, rfl⟩

/-!
## Package expansion (src/apt_diff/dpkg_helper.py,
`expand_package_to_leaf_paths`)

Lines of the `.list` file are normalised (`rstrip("\n")`, `/.` → `/`),
sorted, reversed (descending), and a path is kept iff the previously kept
path does not start with it; the kept list is reversed at the end.
-/

/-- Python string `<=` as a relation, for `sorted`/`list.sort`. -/
def pyLe (a b : PyStr) : Prop := PyOps.lexLe a b = true

instance : DecidableRel pyLe := fun a b => by
  unfold pyLe
  infer_instance

instance : IsTotal PyStr pyLe := ⟨PyOps.lexLe_total⟩

instance : IsTrans PyStr pyLe := ⟨fun _ _ _ => PyOps.lexLe_trans⟩

/-- Python `sorted(l)` / `l.sort()` on strings. -/
def pySorted (l : List PyStr) : List PyStr := List.insertionSort pyLe l

namespace DpkgHelperAd

/-- Normalisation of one `.list` line. -/
def normalizeListLine (line : PyStr) : PyStr :=
  let l := PyOps.rstripNl line
  if l = "/.".toList then "/".toList else l

/-- The keep loop of `expand_package_to_leaf_paths`: iterate the descending
list, dropping a line when the last kept path starts with it. -/
def keepLoop : Option PyStr → List PyStr → List PyStr
  | _, [] => []
  | last, line :: rest =>
    if (match last with
        | none => false
        | some l => !l.isEmpty && line.isPrefixOf l) = true then
      keepLoop last rest
    else
      line :: keepLoop (some line) rest

/-- `expand_package_to_leaf_paths`, as a function of the `.list` lines. -/
def expandPackageToLeafPaths (rawLines : List PyStr) : List PyStr :=
  let lines := rawLines.map normalizeListLine
  let sortedDesc := (pySorted lines).reverse
  (keepLoop none sortedDesc).reverse

theorem keepLoop_drop_cond (l₀ line : PyStr) (h : l₀ ≠ [])
    (rest : List PyStr) :
    keepLoop (some l₀) (line :: rest) =
      if line <+: l₀ then keepLoop (some l₀) rest
      else line :: keepLoop (some line) rest := by
  rw [keepLoop]
  by_cases hp : line <+: l₀
  · rw [if_pos hp, if_pos]
    rw [Bool.and_eq_true]
    constructor
    · cases l₀ with
      | nil => exact absurd rfl h
      | cons c cs => rfl
    · exact List.isPrefixOf_iff_prefix.mpr hp
  · rw [if_neg hp, if_neg]
    rw [Bool.and_eq_true]
    rintro ⟨-, hpre⟩
    exact hp (List.isPrefixOf_iff_prefix.mp hpre)

theorem keepLoop_master :
    ∀ (input : List PyStr) (l₀ : PyStr), l₀ ≠ [] →
    input.Pairwise (fun a b => PyOps.lexLe b a = true) →
    (∀ x ∈ input, PyOps.lexLe x l₀ = true) →
    (∀ k ∈ keepLoop (some l₀) input, k ∈ input) ∧
      (∀ x ∈ input, (∃ k ∈ keepLoop (some l₀) input, x <+: k) ∨ x <+: l₀) ∧
      (keepLoop (some l₀) input).Pairwise
        (fun a b => ¬ a <+: b ∧ ¬ b <+: a) ∧
      (∀ k ∈ keepLoop (some l₀) input, ¬ k <+: l₀) := by
  intro input
  induction input with
  | nil =>
    intro l₀ _ _ _
    exact ⟨(fun k hk => by cases hk), (fun x hx => by cases hx),
      List.Pairwise.nil, (fun k hk => by cases hk)⟩
  | cons line rest ih =>
    intro l₀ hl₀ hdesc hle
    have hdesc' : rest.Pairwise (fun a b => PyOps.lexLe b a = true) :=
      (List.pairwise_cons.mp hdesc).2
    have hheadge : ∀ x ∈ rest, PyOps.lexLe x line = true :=
      (List.pairwise_cons.mp hdesc).1
    rw [keepLoop_drop_cond l₀ line hl₀ rest]
    by_cases hp : line <+: l₀
    · rw [if_pos hp]
      obtain ⟨A, B, C, D⟩ := ih l₀ hl₀ hdesc'
        (fun x hx => hle x (List.mem_cons_of_mem _ hx))
      refine ⟨fun k hk => List.mem_cons_of_mem _ (A k hk), ?_, C, D⟩
      intro x hx
      rcases List.mem_cons.mp hx with hx | hx
      · subst hx; exact Or.inr hp
      · exact B x hx
    · rw [if_neg hp]
      have hlinene : line ≠ [] := by
        intro hcon
        exact hp (hcon ▸ List.nil_prefix)
      obtain ⟨A', B', C', D'⟩ := ih line hlinene hdesc' hheadge
      have hnotpre : ∀ k ∈ keepLoop (some line) rest, ¬ line <+: k := by
        intro k hk hpre
        have hkle : PyOps.lexLe k line = true := hheadge k (A' k hk)
        have hlek : PyOps.lexLe line k = true := PyOps.lexLe_of_prefix hpre
        have : line = k := PyOps.lexLe_antisymm hlek hkle
        exact D' k hk (this ▸ List.prefix_refl _)
      refine ⟨?_, ?_, ?_, ?_⟩
      · intro k hk
        rcases List.mem_cons.mp hk with hk | hk
        · exact hk ▸ List.mem_cons_self _ _
        · exact List.mem_cons_of_mem _ (A' k hk)
      · intro x hx
        rcases List.mem_cons.mp hx with hx | hx
        · subst hx
          exact Or.inl ⟨x, List.mem_cons_self _ _, List.prefix_refl _⟩
        · rcases B' x hx with ⟨k, hk, hxk⟩ | hxl
          · exact Or.inl ⟨k, List.mem_cons_of_mem _ hk, hxk⟩
          · exact Or.inl ⟨line, List.mem_cons_self _ _, hxl⟩
      · rw [List.pairwise_cons]
        exact ⟨fun k hk => ⟨hnotpre k hk, D' k hk⟩, C'⟩
      · intro k hk
        rcases List.mem_cons.mp hk with hk | hk
        · exact hk ▸ hp
        · intro hkl₀
          have hkle : PyOps.lexLe k line = true := hheadge k (A' k hk)
          have hlle : PyOps.lexLe line l₀ = true :=
            hle line (List.mem_cons_self _ _)
          exact D' k hk (PyOps.prefix_of_lexLe_sandwich hkle hlle hkl₀)

end DpkgHelperAd

namespace DpkgHelperAd

theorem keepLoop_top (input : List PyStr) (hne : ∀ x ∈ input, x ≠ [])
    (hdesc : input.Pairwise (fun a b => PyOps.lexLe b a = true)) :
    (∀ k ∈ keepLoop none input, k ∈ input) ∧
      (∀ x ∈ input, ∃ k ∈ keepLoop none input, x <+: k) ∧
      (keepLoop none input).Pairwise (fun a b => ¬ a <+: b ∧ ¬ b <+: a) := by
  cases input with
  | nil =>
    exact ⟨(fun k hk => by cases hk), (fun x hx => by cases hx),
      List.Pairwise.nil⟩
  | cons line rest =>
    have hstep : keepLoop none (line :: rest) =
        line :: keepLoop (some line) rest := by
      rw [keepLoop]
      simp
    rw [hstep]
    have hlinene : line ≠ [] := hne line (List.mem_cons_self _ _)
    have hdesc' : rest.Pairwise (fun a b => PyOps.lexLe b a = true) :=
      (List.pairwise_cons.mp hdesc).2
    have hheadge : ∀ x ∈ rest, PyOps.lexLe x line = true :=
      (List.pairwise_cons.mp hdesc).1
    obtain ⟨A', B', C', D'⟩ := keepLoop_master rest line hlinene hdesc' hheadge
    have hnotpre : ∀ k ∈ keepLoop (some line) rest, ¬ line <+: k := by
      intro k hk hpre
      have hkle : PyOps.lexLe k line = true := hheadge k (A' k hk)
      have hlek : PyOps.lexLe line k = true := PyOps.lexLe_of_prefix hpre
      have : line = k := PyOps.lexLe_antisymm hlek hkle
      exact D' k hk (this ▸ List.prefix_refl _)
    refine ⟨?_, ?_, ?_⟩
    · intro k hk
      rcases List.mem_cons.mp hk with hk | hk
      · exact hk ▸ List.mem_cons_self _ _
      · exact List.mem_cons_of_mem _ (A' k hk)
    · intro x hx
      rcases List.mem_cons.mp hx with hx | hx
      · subst hx
        exact ⟨x, List.mem_cons_self _ _, List.prefix_refl _⟩
      · rcases B' x hx with ⟨k, hk, hxk⟩ | hxl
        · exact ⟨k, List.mem_cons_of_mem _ hk, hxk⟩
        · exact ⟨line, List.mem_cons_self _ _, hxl⟩
    · rw [List.pairwise_cons]
      exact ⟨fun k hk => ⟨hnotpre k hk, D' k hk⟩, C'⟩

end DpkgHelperAd

/-- **C6.** For every `.list` content, `expand_package_to_leaf_paths`
returns paths (after `/.` → `/` normalisation of lines) such that: every
returned path occurs among the normalised lines; no returned path is a
prefix of another returned path; and every normalised line is a prefix of
(or equal to) some returned path — the returned antichain covers the same
file set.  (Lines are assumed non-empty after normalisation, as in any real
`.list` file.) -/
theorem expand_package_to_leaf_paths_correct (rawLines : List PyStr)
    (hne : ∀ l ∈ rawLines.map DpkgHelperAd.normalizeListLine, l ≠ []) :
    (∀ k ∈ DpkgHelperAd.expandPackageToLeafPaths rawLines,
        k ∈ rawLines.map DpkgHelperAd.normalizeListLine) ∧
      (∀ x ∈ rawLines.map DpkgHelperAd.normalizeListLine,
        ∃ k ∈ DpkgHelperAd.expandPackageToLeafPaths rawLines, x <+: k) ∧
      (DpkgHelperAd.expandPackageToLeafPaths rawLines).Pairwise
        (fun a b => ¬ a <+: b ∧ ¬ b <+: a) := by
  have hperm : (pySorted (rawLines.map DpkgHelperAd.normalizeListLine)).reverse.Perm
      (rawLines.map DpkgHelperAd.normalizeListLine) :=
    (List.reverse_perm _).trans (List.perm_insertionSort pyLe _)
  have hne' : ∀ x ∈ (pySorted (rawLines.map DpkgHelperAd.normalizeListLine)).reverse,
      x ≠ [] := fun x hx => hne x (hperm.mem_iff.mp hx)
  have hsorted : (pySorted (rawLines.map DpkgHelperAd.normalizeListLine)).Pairwise
      pyLe := List.sorted_insertionSort pyLe _
  have hdesc : (pySorted (rawLines.map DpkgHelperAd.normalizeListLine)).reverse.Pairwise
      (fun a b => PyOps.lexLe b a = true) :=
    List.pairwise_reverse.mpr hsorted
  obtain ⟨A, B, C⟩ := DpkgHelperAd.keepLoop_top _ hne' hdesc
  refine ⟨?_, ?_, ?_⟩
  · intro k hk
    rw [DpkgHelperAd.expandPackageToLeafPaths, List.mem_reverse] at hk
    exact hperm.mem_iff.mp (A k hk)
  · intro x hx
    obtain ⟨k, hk, hxk⟩ := B x (hperm.mem_iff.mpr hx)
    refine ⟨k, ?_, hxk⟩
    rw [DpkgHelperAd.expandPackageToLeafPaths, List.mem_reverse]
    exact hk
  · rw [DpkgHelperAd.expandPackageToLeafPaths]
    exact List.pairwise_reverse.mpr (C.imp fun h => ⟨h.2, h.1⟩)

/-- Witness for `expand_package_to_leaf_paths_correct` on a `.list` with a
root entry and a chain of nested directories. -/
theorem expand_package_to_leaf_paths_correct_witness :
    (∀ l ∈ ["/.\n".toList, "/usr\n".toList, "/usr/bin\n".toList,
        "/usr/bin/hello\n".toList].map DpkgHelperAd.normalizeListLine,
      l ≠ []) ∧
      ((∀ k ∈ DpkgHelperAd.expandPackageToLeafPaths
          ["/.\n".toList, "/usr\n".toList, "/usr/bin\n".toList,
            "/usr/bin/hello\n".toList],
        k ∈ ["/.\n".toList, "/usr\n".toList, "/usr/bin\n".toList,
          "/usr/bin/hello\n".toList].map DpkgHelperAd.normalizeListLine) ∧
      (∀ x ∈ ["/.\n".toList, "/usr\n".toList, "/usr/bin\n".toList,
          "/usr/bin/hello\n".toList].map DpkgHelperAd.normalizeListLine,
        ∃ k ∈ DpkgHelperAd.expandPackageToLeafPaths
          ["/.\n".toList, "/usr\n".toList, "/usr/bin\n".toList,
            "/usr/bin/hello\n".toList], x <+: k) ∧
      (DpkgHelperAd.expandPackageToLeafPaths
          ["/.\n".toList, "/usr\n".toList, "/usr/bin\n".toList,
            "/usr/bin/hello\n".toList]).Pairwise
        (fun a b => ¬ a <+: b ∧ ¬ b <+: a)) :=
  ⟨by decide, expand_package_to_leaf_paths_correct
    ["/.\n".toList, "/usr\n".toList, "/usr/bin\n".toList,
      "/usr/bin/hello\n".toList] (by decide)⟩

/-!
## PathFilter (src/apt_diff/dpkg_helper.py, `PathFilter` and
`_path_components`)

The filter stores the outermost input paths (sorted, dropping any path the
previously kept path is a string prefix of) as a trie of path components;
`includes` walks the trie and accepts exactly when it runs off the end of a
stored path (or ends exactly on one).
-/

namespace PathFilterAd

/-- `_path_components`. -/
def pathComponents (normpath : PyStr) : List PyStr :=
  if normpath = "/".toList then []
  else PyOps.splitOnChar '/' (PyOps.lstripSlash normpath)

/-- The nested-dictionary trie `self.__paths`. -/
inductive Trie where
  | node : List (PyStr × Trie) → Trie

/-- Python `component in current` / `current[component]`. -/
def findChild (c : PyStr) : List (PyStr × Trie) → Option Trie
  | [] => none
  | (k, t) :: rest => if k = c then some t else findChild c rest

/-- Replacing the binding of an existing key. -/
def replaceChild (c : PyStr) (t' : Trie) :
    List (PyStr × Trie) → List (PyStr × Trie)
  | [] => []
  | (k, t) :: rest =>
    if k = c then (k, t') :: rest else (k, t) :: replaceChild c t' rest

/-- The `__init__` insertion loop for one component list. -/
def Trie.insert : Trie → List PyStr → Trie
  | t, [] => t
  | .node cs, c :: rest =>
    match findChild c cs with
    | some t' => .node (replaceChild c (t'.insert rest) cs)
    | none => .node (cs ++ [(c, (Trie.node []).insert rest)])

/-- `PathFilter.includes`, on the component list. -/
def Trie.includes : Trie → List PyStr → Bool
  | .node cs, [] => cs.isEmpty
  | .node cs, c :: rest =>
    match findChild c cs with
    | none => cs.isEmpty
    | some t' => t'.includes rest

/-- Whether the walk of `p` ends exactly at a childless node. -/
def Trie.walkIsLeaf : Trie → List PyStr → Bool
  | .node cs, [] => cs.isEmpty
  | .node cs, c :: rest =>
    match findChild c cs with
    | none => false
    | some t' => t'.walkIsLeaf rest

/-- Whether the walk of `p` stays inside the trie. -/
def Trie.walkSome : Trie → List PyStr → Bool
  | _, [] => true
  | .node cs, c :: rest =>
    match findChild c cs with
    | none => false
    | some t' => t'.walkSome rest

theorem findChild_append (c : PyStr) (cs ds : List (PyStr × Trie)) :
    findChild c (cs ++ ds) =
      match findChild c cs with
      | some t => some t
      | none => findChild c ds := by
  induction cs with
  | nil => simp [findChild]
  | cons kv rest ih =>
    obtain ⟨k, t⟩ := kv
    by_cases hk : k = c
    · simp [findChild, hk]
    · simp [findChild, hk, ih]

theorem findChild_replace_self (c : PyStr) (t'' : Trie)
    (cs : List (PyStr × Trie)) (h : (findChild c cs).isSome) :
    findChild c (replaceChild c t'' cs) = some t'' := by
  induction cs with
  | nil => simp [findChild] at h
  | cons kv rest ih =>
    obtain ⟨k, t⟩ := kv
    by_cases hk : k = c
    · simp [replaceChild, findChild, hk]
    · rw [findChild, if_neg hk] at h
      simp [replaceChild, findChild, hk, ih h]

theorem findChild_replace_other (c d : PyStr) (t'' : Trie)
    (cs : List (PyStr × Trie)) (h : d ≠ c) :
    findChild d (replaceChild c t'' cs) = findChild d cs := by
  induction cs with
  | nil => simp [replaceChild]
  | cons kv rest ih =>
    obtain ⟨k, t⟩ := kv
    by_cases hk : k = c
    · subst hk
      rw [replaceChild, if_pos rfl, findChild, findChild,
        if_neg (fun hkd => h hkd.symm), if_neg (fun hkd => h hkd.symm)]
    · rw [replaceChild, if_neg hk, findChild, findChild]
      by_cases hkd : k = d
      · rw [if_pos hkd, if_pos hkd]
      · rw [if_neg hkd, if_neg hkd, ih]

theorem replaceChild_isEmpty (c : PyStr) (t'' : Trie)
    (cs : List (PyStr × Trie)) :
    (replaceChild c t'' cs).isEmpty = cs.isEmpty := by
  cases cs with
  | nil => rfl
  | cons kv rest =>
    obtain ⟨k, t⟩ := kv
    rw [replaceChild]
    by_cases hk : k = c
    · rw [if_pos hk]; rfl
    · rw [if_neg hk]; rfl

theorem fresh_includes (q p : List PyStr) :
    ((Trie.node []).insert q).includes p = q.isPrefixOf p := by
  induction q generalizing p with
  | nil =>
    cases p with
    | nil => rfl
    | cons d ps => simp [Trie.insert, Trie.includes, findChild]
  | cons c rest ih =>
    cases p with
    | nil => simp [Trie.insert, Trie.includes, findChild, List.isPrefixOf]
    | cons d ps =>
      by_cases hd : c = d
      · subst hd
        simp [Trie.insert, Trie.includes, findChild, List.isPrefixOf, ih]
      · have hdc : ¬ d = c := fun h => hd h.symm
        simp [Trie.insert, Trie.includes, findChild, List.isPrefixOf, hd, hdc]

theorem fresh_walkIsLeaf (q p : List PyStr) :
    ((Trie.node []).insert q).walkIsLeaf p = decide (p = q) := by
  induction q generalizing p with
  | nil =>
    cases p with
    | nil => rfl
    | cons d ps => simp [Trie.insert, Trie.walkIsLeaf, findChild]
  | cons c rest ih =>
    cases p with
    | nil => simp [Trie.insert, Trie.walkIsLeaf, findChild]
    | cons d ps =>
      by_cases hd : d = c
      · subst hd
        simp [Trie.insert, Trie.walkIsLeaf, findChild, ih]
      · have hcd : ¬ c = d := fun h => hd h.symm
        simp [Trie.insert, Trie.walkIsLeaf, findChild, hd, hcd]

theorem fresh_walkSome (q p : List PyStr) :
    ((Trie.node []).insert q).walkSome p = p.isPrefixOf q := by
  induction q generalizing p with
  | nil =>
    cases p with
    | nil => rfl
    | cons d ps => simp [Trie.insert, Trie.walkSome, findChild, List.isPrefixOf]
  | cons c rest ih =>
    cases p with
    | nil => rfl
    | cons d ps =>
      by_cases hd : d = c
      · subst hd
        simp [Trie.insert, Trie.walkSome, findChild, List.isPrefixOf, ih]
      · have hcd : ¬ c = d := fun h => hd h.symm
        simp [Trie.insert, Trie.walkSome, findChild, List.isPrefixOf, hd, hcd]

end PathFilterAd

namespace PathFilterAd

theorem insert_includes (q : List PyStr) :
    ∀ (t : Trie) (p : List PyStr),
    (∀ q₁ q₂, q = q₁ ++ q₂ → q₂ ≠ [] → t.walkIsLeaf q₁ = false) →
    t.walkSome q = false →
    (t.insert q).includes p = (t.includes p || q.isPrefixOf p) := by
  induction q with
  | nil =>
    intro t p _ hb
    obtain ⟨cs⟩ := t
    simp [Trie.walkSome] at hb
  | cons c rest ih =>
    intro t p ha hb
    obtain ⟨cs⟩ := t
    have hcs : cs.isEmpty = false := by
      have := ha [] (c :: rest) rfl (by simp)
      simpa [Trie.walkIsLeaf] using this
    cases hfc : findChild c cs with
    | none =>
      have hins : (Trie.node cs).insert (c :: rest) =
          Trie.node (cs ++ [(c, (Trie.node []).insert rest)]) := by
        rw [Trie.insert, hfc]
      rw [hins]
      cases p with
      | nil =>
        simp [Trie.includes, List.isPrefixOf, hcs]
      | cons d ps =>
        rw [Trie.includes, findChild_append]
        cases hfd : findChild d cs with
        | some t'' =>
          have hcd : ¬ c = d := by
            intro h
            rw [h, hfd] at hfc
            cases hfc
          rw [Trie.includes, hfd]
          simp [List.isPrefixOf, hcd]
        | none =>
          by_cases hdc : c = d
          · subst hdc
            rw [Trie.includes, hfd]
            simp [findChild, fresh_includes, List.isPrefixOf, hcs]
          · rw [Trie.includes, hfd]
            have hemp : (cs ++ [(c, (Trie.node []).insert rest)]).isEmpty =
                false := by
              cases cs <;> rfl
            simp [findChild, hdc, List.isPrefixOf, hcs, hemp]
    | some t' =>
      have hb' : t'.walkSome rest = false := by
        have := hb
        rwa [Trie.walkSome, hfc] at this
      have ha' : ∀ r₁ r₂, rest = r₁ ++ r₂ → r₂ ≠ [] → t'.walkIsLeaf r₁ = false := by
        intro r₁ r₂ hr hne
        have := ha (c :: r₁) r₂ (by rw [hr]; rfl) hne
        rwa [Trie.walkIsLeaf, hfc] at this
      have hins : (Trie.node cs).insert (c :: rest) =
          Trie.node (replaceChild c (t'.insert rest) cs) := by
        rw [Trie.insert, hfc]
      rw [hins]
      cases p with
      | nil =>
        simp [Trie.includes, replaceChild_isEmpty, List.isPrefixOf]
      | cons d ps =>
        by_cases hdc : d = c
        · subst hdc
          rw [Trie.includes, findChild_replace_self _ _ _ (by rw [hfc]; rfl)]
          show (t'.insert rest).includes ps = _
          rw [ih t' ps ha' hb', Trie.includes, hfc]
          simp [List.isPrefixOf]
        · rw [Trie.includes, findChild_replace_other c d _ cs hdc,
            Trie.includes]
          have hcd : ¬ c = d := fun h => hdc h.symm
          cases hfd : findChild d cs with
          | some t'' => simp [List.isPrefixOf, hcd]
          | none => simp [List.isPrefixOf, hcd, replaceChild_isEmpty]

theorem insert_walkIsLeaf (q : List PyStr) :
    ∀ (t : Trie) (p : List PyStr),
    (∀ q₁ q₂, q = q₁ ++ q₂ → q₂ ≠ [] → t.walkIsLeaf q₁ = false) →
    t.walkSome q = false →
    (t.insert q).walkIsLeaf p = (t.walkIsLeaf p || decide (p = q)) := by
  induction q with
  | nil =>
    intro t p _ hb
    obtain ⟨cs⟩ := t
    simp [Trie.walkSome] at hb
  | cons c rest ih =>
    intro t p ha hb
    obtain ⟨cs⟩ := t
    have hcs : cs.isEmpty = false := by
      have := ha [] (c :: rest) rfl (by simp)
      simpa [Trie.walkIsLeaf] using this
    cases hfc : findChild c cs with
    | none =>
      have hins : (Trie.node cs).insert (c :: rest) =
          Trie.node (cs ++ [(c, (Trie.node []).insert rest)]) := by
        rw [Trie.insert, hfc]
      rw [hins]
      cases p with
      | nil =>
        simp [Trie.walkIsLeaf, hcs]
      | cons d ps =>
        rw [Trie.walkIsLeaf, findChild_append]
        cases hfd : findChild d cs with
        | some t'' =>
          have hcd : ¬ c = d := by
            intro h
            rw [h, hfd] at hfc
            cases hfc
          have hdc : ¬ d = c := fun h => hcd h.symm
          rw [Trie.walkIsLeaf, hfd]
          simp [hdc]
        | none =>
          by_cases hdc : c = d
          · subst hdc
            rw [Trie.walkIsLeaf, hfd]
            simp [findChild, fresh_walkIsLeaf]
          · have hdc' : ¬ d = c := fun h => hdc h.symm
            rw [Trie.walkIsLeaf, hfd]
            simp [findChild, hdc, hdc']
    | some t' =>
      have hb' : t'.walkSome rest = false := by
        have := hb
        rwa [Trie.walkSome, hfc] at this
      have ha' : ∀ r₁ r₂, rest = r₁ ++ r₂ → r₂ ≠ [] → t'.walkIsLeaf r₁ = false := by
        intro r₁ r₂ hr hne
        have := ha (c :: r₁) r₂ (by rw [hr]; rfl) hne
        rwa [Trie.walkIsLeaf, hfc] at this
      have hins : (Trie.node cs).insert (c :: rest) =
          Trie.node (replaceChild c (t'.insert rest) cs) := by
        rw [Trie.insert, hfc]
      rw [hins]
      cases p with
      | nil =>
        simp [Trie.walkIsLeaf, replaceChild_isEmpty]
      | cons d ps =>
        by_cases hdc : d = c
        · subst hdc
          rw [Trie.walkIsLeaf, findChild_replace_self _ _ _ (by rw [hfc]; rfl)]
          show (t'.insert rest).walkIsLeaf ps = _
          rw [ih t' ps ha' hb', Trie.walkIsLeaf, hfc]
          simp
        · have hcd : ¬ c = d := fun h => hdc h.symm
          rw [Trie.walkIsLeaf, findChild_replace_other c d _ cs hdc,
            Trie.walkIsLeaf]
          cases hfd : findChild d cs with
          | some t'' => simp [hdc]
          | none => simp [hdc]

theorem insert_walkSome (q : List PyStr) :
    ∀ (t : Trie) (p : List PyStr),
    (∀ q₁ q₂, q = q₁ ++ q₂ → q₂ ≠ [] → t.walkIsLeaf q₁ = false) →
    t.walkSome q = false →
    (t.insert q).walkSome p = (t.walkSome p || p.isPrefixOf q) := by
  induction q with
  | nil =>
    intro t p _ hb
    obtain ⟨cs⟩ := t
    simp [Trie.walkSome] at hb
  | cons c rest ih =>
    intro t p ha hb
    obtain ⟨cs⟩ := t
    cases hfc : findChild c cs with
    | none =>
      have hins : (Trie.node cs).insert (c :: rest) =
          Trie.node (cs ++ [(c, (Trie.node []).insert rest)]) := by
        rw [Trie.insert, hfc]
      rw [hins]
      cases p with
      | nil => simp [Trie.walkSome]
      | cons d ps =>
        rw [Trie.walkSome, findChild_append]
        cases hfd : findChild d cs with
        | some t'' =>
          have hcd : ¬ c = d := by
            intro h
            rw [h, hfd] at hfc
            cases hfc
          have hdc : ¬ d = c := fun h => hcd h.symm
          rw [Trie.walkSome, hfd]
          simp [List.isPrefixOf, hdc]
        | none =>
          by_cases hdc : c = d
          · subst hdc
            rw [Trie.walkSome, hfd]
            simp [findChild, fresh_walkSome, List.isPrefixOf]
          · have hdc' : ¬ d = c := fun h => hdc h.symm
            rw [Trie.walkSome, hfd]
            simp [findChild, hdc, hdc', List.isPrefixOf]
    | some t' =>
      have hb' : t'.walkSome rest = false := by
        have := hb
        rwa [Trie.walkSome, hfc] at this
      have ha' : ∀ r₁ r₂, rest = r₁ ++ r₂ → r₂ ≠ [] → t'.walkIsLeaf r₁ = false := by
        intro r₁ r₂ hr hne
        have := ha (c :: r₁) r₂ (by rw [hr]; rfl) hne
        rwa [Trie.walkIsLeaf, hfc] at this
      have hins : (Trie.node cs).insert (c :: rest) =
          Trie.node (replaceChild c (t'.insert rest) cs) := by
        rw [Trie.insert, hfc]
      rw [hins]
      cases p with
      | nil => simp [Trie.walkSome]
      | cons d ps =>
        by_cases hdc : d = c
        · subst hdc
          rw [Trie.walkSome, findChild_replace_self _ _ _ (by rw [hfc]; rfl)]
          show (t'.insert rest).walkSome ps = _
          rw [ih t' ps ha' hb', Trie.walkSome, hfc]
          simp [List.isPrefixOf]
        · have hcd : ¬ c = d := fun h => hdc h.symm
          rw [Trie.walkSome, findChild_replace_other c d _ cs hdc,
            Trie.walkSome]
          cases hfd : findChild d cs with
          | some t'' => simp [List.isPrefixOf, hdc]
          | none => simp [List.isPrefixOf, hdc]

end PathFilterAd

namespace PathFilterAd

/-- The trie built from the outermost paths stores exactly `qs`. -/
def Stores (t : Trie) (qs : List (List PyStr)) : Prop :=
  (∀ p, t.includes p = qs.any (fun q => q.isPrefixOf p)) ∧
    (∀ p, t.walkIsLeaf p = qs.any (fun q => decide (q = p))) ∧
    (∀ p, t.walkSome p = qs.any (fun q => p.isPrefixOf q))

theorem fresh_stores (q : List PyStr) : Stores ((Trie.node []).insert q) [q] := by
  refine ⟨fun p => ?_, fun p => ?_, fun p => ?_⟩
  · rw [fresh_includes]
    simp
  · rw [fresh_walkIsLeaf]
    simp [eq_comm]
  · rw [fresh_walkSome]
    simp

theorem insert_stores {t : Trie} {qs : List (List PyStr)} {q : List PyStr}
    (hst : Stores t qs)
    (hcompat : ∀ r ∈ qs, ¬ r <+: q ∧ ¬ q <+: r) :
    Stores (t.insert q) (qs ++ [q]) := by
  obtain ⟨h1, h2, h3⟩ := hst
  have hb : t.walkSome q = false := by
    rw [h3 q, List.any_eq_false]
    intro r hr
    simp only [Bool.not_eq_true]
    rw [Bool.eq_false_iff]
    intro hc
    exact (hcompat r hr).2 (List.isPrefixOf_iff_prefix.mp hc)
  have ha : ∀ q₁ q₂, q = q₁ ++ q₂ → q₂ ≠ [] → t.walkIsLeaf q₁ = false := by
    intro q₁ q₂ hq _
    rw [h2 q₁, List.any_eq_false]
    intro r hr
    simp only [Bool.not_eq_true, decide_eq_false_iff_not]
    intro hreq
    subst hreq
    exact (hcompat r hr).1 ⟨q₂, hq.symm⟩
  refine ⟨fun p => ?_, fun p => ?_, fun p => ?_⟩
  · rw [insert_includes q t p ha hb, h1 p, List.any_append]
    simp
  · rw [insert_walkIsLeaf q t p ha hb, h2 p, List.any_append]
    simp [eq_comm]
  · rw [insert_walkSome q t p ha hb, h3 p, List.any_append]
    simp

/-- `_path_components` compatibility of two paths: neither's component list
is a prefix of the other's. -/
def CompCompat (a b : PyStr) : Prop :=
  ¬ pathComponents a <+: pathComponents b ∧
    ¬ pathComponents b <+: pathComponents a

theorem fold_stores_paths :
    ∀ (ps : List PyStr) (t : Trie) (acc : List (List PyStr)),
    Stores t acc →
    (∀ p ∈ ps, ∀ r ∈ acc,
      ¬ r <+: pathComponents p ∧ ¬ pathComponents p <+: r) →
    ps.Pairwise CompCompat →
    Stores (ps.foldl (fun t p => t.insert (pathComponents p)) t)
      (acc ++ ps.map pathComponents) := by
  intro ps
  induction ps with
  | nil =>
    intro t acc h _ _
    simpa using h
  | cons p rest ih =>
    intro t acc hst hcompat hpw
    have hstep : Stores (t.insert (pathComponents p))
        (acc ++ [pathComponents p]) :=
      insert_stores hst (hcompat p (List.mem_cons_self _ _))
    have hheads : ∀ x ∈ rest, CompCompat p x := (List.pairwise_cons.mp hpw).1
    have hcompat' : ∀ x ∈ rest, ∀ r ∈ acc ++ [pathComponents p],
        ¬ r <+: pathComponents x ∧ ¬ pathComponents x <+: r := by
      intro x hx r hr
      rcases List.mem_append.mp hr with hr | hr
      · exact hcompat x (List.mem_cons_of_mem _ hx) r hr
      · rw [List.mem_singleton] at hr
        subst hr
        exact ⟨(hheads x hx).1, (hheads x hx).2⟩
    have hres := ih (t.insert (pathComponents p)) (acc ++ [pathComponents p])
      hstep hcompat' (List.pairwise_cons.mp hpw).2
    rw [List.foldl_cons]
    have : acc ++ (p :: rest).map pathComponents =
        (acc ++ [pathComponents p]) ++ rest.map pathComponents := by
      simp
    rw [this]
    exact hres

/-- The `__init__` outermost loop: iterate the sorted paths, dropping a path
the previously kept path is a string prefix of. -/
def outermostLoop : Option PyStr → List PyStr → List PyStr
  | _, [] => []
  | last, p :: rest =>
    if (match last with
        | none => false
        | some l => !l.isEmpty && l.isPrefixOf p) = true then
      outermostLoop last rest
    else p :: outermostLoop (some p) rest

/-- The trie built by inserting the component lists of the outermost paths. -/
def buildTrie (outermost : List PyStr) : Trie :=
  outermost.foldl (fun t p => t.insert (pathComponents p)) (Trie.node [])

/-- The `PathFilter` object: `None` when no outermost paths remain. -/
structure PathFilter where
  pathsTrie : Option Trie

/-- `PathFilter.__init__`. -/
def mkPathFilter (paths : List PyStr) : PathFilter :=
  let outermost := outermostLoop none (pySorted paths)
  if outermost = [] then ⟨none⟩ else ⟨some (buildTrie outermost)⟩

/-- `PathFilter.includes`. -/
def PathFilter.includes (f : PathFilter) (p : PyStr) : Bool :=
  match f.pathsTrie with
  | none => false
  | some t => t.includes (pathComponents p)

/-- On a prefix-free path list the outermost loop keeps everything. -/
theorem outermostLoop_id :
    ∀ (l : List PyStr) (last : Option PyStr),
    (∀ y ∈ l, (match last with | none => True | some x => ¬ x <+: y)) →
    l.Pairwise (fun a b => ¬ a <+: b) →
    outermostLoop last l = l := by
  intro l
  induction l with
  | nil =>
    intro last _ _
    rfl
  | cons p rest ih =>
    intro last hlast hpw
    have hheads := (List.pairwise_cons.mp hpw).1
    have htail := (List.pairwise_cons.mp hpw).2
    cases last with
    | none =>
      show p :: outermostLoop (some p) rest = p :: rest
      rw [ih (some p) hheads htail]
    | some x =>
      have hnp : ¬ x <+: p := hlast p (List.mem_cons_self _ _)
      have h2 : x.isPrefixOf p = false := by
        rw [Bool.eq_false_iff]
        intro hc
        exact hnp (List.isPrefixOf_iff_prefix.mp hc)
      have hstep : outermostLoop (some x) (p :: rest) =
          if (!x.isEmpty && x.isPrefixOf p) = true then
            outermostLoop (some x) rest
          else p :: outermostLoop (some p) rest := rfl
      rw [hstep, h2]
      simp only [Bool.and_false, Bool.false_eq_true, if_false]
      rw [ih (some p) hheads htail]

end PathFilterAd

namespace PathFilterAd

/-- A normalised absolute path: the root `/`, or `/` followed by non-empty,
slash-free components joined by `/` (no duplicate slashes, no trailing
slash, no `.`/`..` handling needed here). -/
def NormalizedPath (s : PyStr) : Prop :=
  s = "/".toList ∨
    ∃ comps, comps ≠ [] ∧ (∀ c ∈ comps, c ≠ [] ∧ '/' ∉ c) ∧
      s = '/' :: PyOps.joinOn '/' comps

theorem splitOnChar_joinOn (comps : List PyStr) (hc : comps ≠ [])
    (hnc : ∀ c ∈ comps, '/' ∉ c) :
    PyOps.splitOnChar '/' (PyOps.joinOn '/' comps) = comps := by
  induction comps with
  | nil => exact absurd rfl hc
  | cons c rest ih =>
    cases rest with
    | nil =>
      exact PyOps.splitOnChar_of_not_mem _ _ (hnc c (List.mem_cons_self _ _))
    | cons c' rest' =>
      have hjoin : PyOps.joinOn '/' (c :: c' :: rest') =
          c ++ '/' :: PyOps.joinOn '/' (c' :: rest') := rfl
      rw [hjoin, PyOps.splitOnChar_append _ _ _ (hnc c (List.mem_cons_self _ _)),
        ih (by simp) (fun x hx => hnc x (List.mem_cons_of_mem _ hx))]

theorem joinOn_head (c₀ : PyStr) (rest : List PyStr) (_h : c₀ ≠ []) :
    ∃ tl, PyOps.joinOn '/' (c₀ :: rest) = c₀ ++ tl := by
  cases rest with
  | nil => exact ⟨[], by simp [PyOps.joinOn]⟩
  | cons c' rest' => exact ⟨'/' :: PyOps.joinOn '/' (c' :: rest'), rfl⟩

theorem pathComponents_of_norm (s : PyStr) (h : NormalizedPath s) :
    (s = "/".toList ∧ pathComponents s = []) ∨
      ∃ comps, comps ≠ [] ∧ (∀ c ∈ comps, c ≠ [] ∧ '/' ∉ c) ∧
        s = '/' :: PyOps.joinOn '/' comps ∧ pathComponents s = comps := by
  rcases h with h | ⟨comps, hcne, hcc, hs⟩
  · left
    exact ⟨h, by rw [h]; rfl⟩
  · right
    refine ⟨comps, hcne, hcc, hs, ?_⟩
    obtain ⟨c₀, crest, rfl⟩ := List.exists_cons_of_ne_nil hcne
    obtain ⟨ch, ctl, rfl⟩ :=
      List.exists_cons_of_ne_nil (hcc _ (List.mem_cons_self _ _)).1
    have hch : ch ≠ '/' := by
      intro hcon
      exact (hcc _ (List.mem_cons_self _ _)).2
        (hcon ▸ List.mem_cons_self _ _)
    obtain ⟨tl, htl⟩ := joinOn_head (ch :: ctl) crest (by simp)
    have hsne : s ≠ "/".toList := by
      rw [hs, htl]
      intro hcon
      simp at hcon
    rw [pathComponents, if_neg hsne, hs]
    have hlstrip : PyOps.lstripSlash ('/' :: PyOps.joinOn '/'
        ((ch :: ctl) :: crest)) = PyOps.joinOn '/' ((ch :: ctl) :: crest) := by
      rw [PyOps.lstripSlash, htl, List.dropWhile]
      simp only [List.cons_append, decide_eq_true_eq]
      rw [List.dropWhile_cons]
      simp [hch]
    rw [hlstrip, splitOnChar_joinOn _ (by simp) (fun x hx => (hcc x hx).2)]

theorem joinOn_prefix_of_prefix (cq ext : List PyStr) (hcq : cq ≠ []) :
    PyOps.joinOn '/' cq <+: PyOps.joinOn '/' (cq ++ ext) := by
  cases ext with
  | nil => simp
  | cons e es =>
    induction cq with
    | nil => exact absurd rfl hcq
    | cons c crest ih =>
      cases crest with
      | nil =>
        show PyOps.joinOn '/' [c] <+: PyOps.joinOn '/' (c :: e :: es)
        have h1 : PyOps.joinOn '/' [c] = c := rfl
        have h2 : PyOps.joinOn '/' (c :: e :: es) =
            c ++ '/' :: PyOps.joinOn '/' (e :: es) := rfl
        rw [h1, h2]
        exact List.prefix_append _ _
      | cons c' crest' =>
        have h1 : PyOps.joinOn '/' (c :: c' :: crest') =
            c ++ '/' :: PyOps.joinOn '/' (c' :: crest') := rfl
        have h2 : PyOps.joinOn '/' ((c :: c' :: crest') ++ e :: es) =
            c ++ '/' :: PyOps.joinOn '/' ((c' :: crest') ++ e :: es) := rfl
        rw [h1, h2]
        obtain ⟨t, ht⟩ := ih (by simp)
        exact ⟨t, by rw [← ht]; simp⟩

/-- For normalised paths, component-list prefix implies string prefix. -/
theorem string_prefix_of_components_prefix (q p : PyStr)
    (hq : NormalizedPath q) (hp : NormalizedPath p)
    (h : pathComponents q <+: pathComponents p) : q <+: p := by
  rcases pathComponents_of_norm q hq with ⟨hqr, hqc⟩ | ⟨cq, hcqne, _, hqs, hqc⟩
  · subst hqr
    rcases hp with hpr | ⟨cp, _, _, hps⟩
    · rw [hpr]
    · rw [hps]
      exact ⟨PyOps.joinOn '/' cp, rfl⟩
  · rcases pathComponents_of_norm p hp with ⟨hpr, hpc⟩ | ⟨cp, _, _, hps, hpc⟩
    · rw [hqc, hpc] at h
      exact absurd (List.prefix_nil.mp h) hcqne
    · rw [hqc, hpc] at h
      obtain ⟨ext, hext⟩ := h
      rw [hqs, hps, ← hext]
      exact List.cons_prefix_cons.mpr ⟨rfl, joinOn_prefix_of_prefix cq ext hcqne⟩

end PathFilterAd

/-- **C3 (amended).** For a list of normalised absolute paths in which no
path is a string prefix of another (so the sort-and-drop construction keeps
them all), `PathFilter(paths).includes(p)` is true iff some `q ∈ paths`
equals `p` or is an ancestor directory of `p` (its component list is a
prefix of `p`'s); in particular the empty filter includes nothing.  Without
the prefix-freeness proviso the original claim fails: a path that is a
string prefix of another (e.g. `/a` and `/ab`) drops the longer one from
the filter even though it is not an ancestor directory. -/
theorem path_filter_includes_iff (paths : List PyStr) (p : PyStr)
    (hnorm : ∀ q ∈ paths, PathFilterAd.NormalizedPath q)
    (hfree : paths.Pairwise (fun a b => ¬ a <+: b ∧ ¬ b <+: a)) :
    (PathFilterAd.mkPathFilter paths).includes p = true ↔
      ∃ q ∈ paths,
        PathFilterAd.pathComponents q <+: PathFilterAd.pathComponents p := by
  have hperm : (pySorted paths).Perm paths := List.perm_insertionSort pyLe paths
  have hfree' : (pySorted paths).Pairwise
      (fun a b => ¬ a <+: b ∧ ¬ b <+: a) :=
    (hperm.pairwise_iff (fun h => ⟨h.2, h.1⟩)).mpr hfree
  have hnorm' : ∀ q ∈ pySorted paths, PathFilterAd.NormalizedPath q :=
    fun q hq => hnorm q (hperm.mem_iff.mp hq)
  have houter : PathFilterAd.outermostLoop none (pySorted paths) =
      pySorted paths :=
    PathFilterAd.outermostLoop_id _ none (fun y _ => trivial)
      (hfree'.imp fun h => h.1)
  rcases hL : pySorted paths with _ | ⟨s₀, srest⟩
  · have hpaths : paths = [] := by
      rw [hL] at hperm
      exact (hperm.symm.eq_nil)
    have hmk : PathFilterAd.mkPathFilter paths = ⟨none⟩ := by
      rw [PathFilterAd.mkPathFilter, hL]
      simp [PathFilterAd.outermostLoop]
    rw [hmk]
    simp [PathFilterAd.PathFilter.includes, hpaths]
  · rw [hL] at hperm hfree' hnorm' houter
    have hCompPw : (s₀ :: srest).Pairwise PathFilterAd.CompCompat := by
      refine List.Pairwise.imp_of_mem ?_ hfree'
      intro a b ha hb hab
      constructor
      · intro hpre
        exact hab.1 (PathFilterAd.string_prefix_of_components_prefix a b
          (hnorm' a ha) (hnorm' b hb) hpre)
      · intro hpre
        exact hab.2 (PathFilterAd.string_prefix_of_components_prefix b a
          (hnorm' b hb) (hnorm' a ha) hpre)
    have hstores : PathFilterAd.Stores (PathFilterAd.buildTrie (s₀ :: srest))
        ((s₀ :: srest).map PathFilterAd.pathComponents) := by
      rw [PathFilterAd.buildTrie, List.foldl_cons]
      have hcompat : ∀ x ∈ srest,
          ∀ r ∈ [PathFilterAd.pathComponents s₀],
          ¬ r <+: PathFilterAd.pathComponents x ∧
            ¬ PathFilterAd.pathComponents x <+: r := by
        intro x hx r hr
        rw [List.mem_singleton] at hr
        subst hr
        exact ⟨((List.pairwise_cons.mp hCompPw).1 x hx).1,
          ((List.pairwise_cons.mp hCompPw).1 x hx).2⟩
      have hres := PathFilterAd.fold_stores_paths srest
        ((PathFilterAd.Trie.node []).insert (PathFilterAd.pathComponents s₀))
        [PathFilterAd.pathComponents s₀]
        (PathFilterAd.fresh_stores (PathFilterAd.pathComponents s₀))
        hcompat (List.pairwise_cons.mp hCompPw).2
      simpa using hres
    have hmk : PathFilterAd.mkPathFilter paths =
        ⟨some (PathFilterAd.buildTrie (s₀ :: srest))⟩ := by
      rw [PathFilterAd.mkPathFilter]
      simp only [houter, hL]
      rw [if_neg (by simp)]
    rw [hmk]
    show (PathFilterAd.buildTrie (s₀ :: srest)).includes
        (PathFilterAd.pathComponents p) = true ↔ _
    rw [hstores.1 (PathFilterAd.pathComponents p), List.any_eq_true]
    constructor
    · rintro ⟨cq, hcq, hpre⟩
      obtain ⟨q, hq, rfl⟩ := List.mem_map.mp hcq
      exact ⟨q, hperm.mem_iff.mp hq, List.isPrefixOf_iff_prefix.mp hpre⟩
    · rintro ⟨q, hq, hpre⟩
      exact ⟨PathFilterAd.pathComponents q,
        List.mem_map.mpr ⟨q, hperm.mem_iff.mpr hq, rfl⟩,
        List.isPrefixOf_iff_prefix.mpr hpre⟩

/-- Witness for `path_filter_includes_iff` on `["/usr", "/etc/hosts"]` and
the query `/usr/bin`. -/
theorem path_filter_includes_iff_witness :
    (∀ q ∈ ["/usr".toList, "/etc/hosts".toList],
        PathFilterAd.NormalizedPath q) ∧
      (["/usr".toList, "/etc/hosts".toList].Pairwise
        (fun a b => ¬ a <+: b ∧ ¬ b <+: a)) ∧
      ((PathFilterAd.mkPathFilter
            ["/usr".toList, "/etc/hosts".toList]).includes
          "/usr/bin".toList = true ↔
        ∃ q ∈ ["/usr".toList, "/etc/hosts".toList],
          PathFilterAd.pathComponents q <+:
            PathFilterAd.pathComponents "/usr/bin".toList) := by
  have hnorm : ∀ q ∈ ["/usr".toList, "/etc/hosts".toList],
      PathFilterAd.NormalizedPath q := by
    intro q hq
    rcases List.mem_cons.mp hq with h | h
    · rw [h]
      exact Or.inr ⟨["usr".toList], by decide, by decide, by decide⟩
    · rw [List.mem_singleton] at h
      rw [h]
      exact Or.inr ⟨["etc".toList, "hosts".toList], by decide, by decide,
        by decide⟩
  exact ⟨hnorm, by decide,
    path_filter_includes_iff ["/usr".toList, "/etc/hosts".toList]
      "/usr/bin".toList hnorm (by decide)⟩

/-- **C3 counterexample.** With `paths = ["/a", "/ab"]` and `p = "/ab"`,
the path `q = "/ab" ∈ paths` equals `p`, yet `includes(p)` is false: the
construction drops `/ab` because the kept path `/a` is a string prefix of
it, so the claimed equivalence fails as stated. -/
theorem path_filter_includes_counterexample :
    ¬ ((PathFilterAd.mkPathFilter
          ["/a".toList, "/ab".toList]).includes "/ab".toList = true ↔
      ∃ q ∈ ["/a".toList, "/ab".toList],
        q = "/ab".toList ∨
          PathFilterAd.pathComponents q <+:
            PathFilterAd.pathComponents "/ab".toList) := by
  decide
